import Mathlib

/-
Verification of the GDELT attack-map aggregation scripts.

The repository's five Python scripts share one core: normalize a raw event
record, filter it (year, CAMEO root-code allow-list, parseable coordinates,
8-character day string), group records by a string merge key
`date_iso|root|normalized_place`, accumulate coordinate sums / counts /
source lists per key, and emit one GeoJSON point per key at the arithmetic
centroid.  `scripts/update_attacks_2026.py` additionally runs a second
"hard dedupe" pass re-keying the accumulators by
`date|attack_type|normalized_place`.

Embedding conventions:
* Python `float` is modelled as `ℚ` (the merge algebra is exact addition
  and division; no float rounding is modelled).  `safe_float` is modelled
  by giving `Row.lat`/`Row.lon` type `Option ℚ`: `none` is a parse failure.
* Python `str` is `String` (a wrapper of `List Char` in Lean).
  `str.strip()` is `pyStrip`, `str.lower()` is `pyLower` (ASCII case map,
  which is what the feed's codes/URLs/place names use), `str.split()` is
  `pyWords`.
* Python `dict` (insertion ordered) is an association list
  `List (String × β)`: update mutates the first matching entry in place,
  a new key is appended at the end, `.values()` is `List.map Prod.snd`.
* Python `set` is `Finset String`; `list` is `List`.
* `features.sort(key=..., reverse=True)` (a stable sort) is modelled by
  `List.insertionSort` with the corresponding total preorder.
-/

set_option autoImplicit false

/-- Model of Python `str.strip()`: drop whitespace from both ends. -/
def pyStrip (s : String) : String :=
  String.mk (((s.data.dropWhile Char.isWhitespace).reverse.dropWhile Char.isWhitespace).reverse)

/-- Model of Python `str.lower()` on the ASCII range. -/
def pyLower (s : String) : String :=
  String.mk (s.data.map Char.toLower)

/-- Helper of `pyWords`: accumulates the current word (reversed). -/
def wordsAux : List Char → List Char → List (List Char)
  | [], acc => if acc = [] then [] else [acc.reverse]
  | c :: cs, acc =>
    if c.isWhitespace then
      if acc = [] then wordsAux cs [] else acc.reverse :: wordsAux cs []
    else wordsAux cs (c :: acc)

/-- Model of Python `str.split()` with no separator: maximal runs of
non-whitespace characters, leading/trailing/repeated whitespace dropped. -/
def pyWords (l : List Char) : List (List Char) := wordsAux l []

/-- `norm_loc` from the scripts: empty input becomes the literal token
`"unknown"`, otherwise `" ".join(s.strip().lower().split())` (the `strip`
is absorbed by `split`, which already ignores leading/trailing runs). -/
def norm_loc (s : String) : String :=
  if s = "" then "unknown"
  else String.intercalate " " ((pyWords (pyLower s).data).map String.mk)

/-- `MAX_SOURCES_PER_EVENT` from the scripts. -/
def MAX_SOURCES_PER_EVENT : Nat := 8

/-- `add_unique` from the scripts: ignore an empty URL, ignore a URL already
present, append otherwise unless the cap is already reached. -/
def add_unique (lst : List String) (url : String) : List String :=
  if url = "" then lst
  else if url ∈ lst ∨ MAX_SOURCES_PER_EVENT ≤ lst.length then lst
  else lst ++ [url]

namespace UpdateAttacks2026

/-- `ROOT_CODE_LABEL` from `update_attacks_2026.py` (same table in every
script), as the lookup it is used for: `none` means "not in the table". -/
def ROOT_CODE_LABEL (root : String) : Option String :=
  if root = "18" then some "assault"
  else if root = "19" then some "fight"
  else if root = "20" then some "mass_violence"
  else none

/-- `yyyymmdd_to_iso` from `update_attacks_2026.py`:
`if not s or len(s) != 8: return ""` then slice `s[0:4]-s[4:6]-s[6:8]`.
Note: there is no digit check and no 14-character branch. -/
def yyyymmdd_to_iso (s : String) : String :=
  if s = "" ∨ s.length ≠ 8 then ""
  else
    String.mk (s.data.take 4) ++ "-" ++ String.mk ((s.data.drop 4).take 2)
      ++ "-" ++ String.mk ((s.data.drop 6).take 2)

end UpdateAttacks2026

namespace Build2025Quarters

/-- `yyyymmdd_to_iso` from `build_2025_quarters.py`:
`if len(day) == 8 and day.isdigit()` then slice, else `""`.  This variant
does check that every character is a digit. -/
def yyyymmdd_to_iso (day : String) : String :=
  if day.length = 8 ∧ day.data.all Char.isDigit then
    String.mk (day.data.take 4) ++ "-" ++ String.mk ((day.data.drop 4).take 2)
      ++ "-" ++ String.mk ((day.data.drop 6).take 2)
  else ""

end Build2025Quarters

namespace Build2025QuartersFast

/-- `yyyymmdd_to_iso` from `build_2025_quarters_fast.py`: character-for-
character the same code as the `update_attacks_2026.py` variant. -/
def yyyymmdd_to_iso (s : String) : String :=
  if s = "" ∨ s.length ≠ 8 then ""
  else
    String.mk (s.data.take 4) ++ "-" ++ String.mk ((s.data.drop 4).take 2)
      ++ "-" ++ String.mk ((s.data.drop 6).take 2)

end Build2025QuartersFast

namespace Agg

variable {K ι β : Type} [DecidableEq K]

/-- One Python-dict update `agg[key] = ...` inside the aggregation loop:
if `key` is present, merge `x` into the first (only) entry holding it,
otherwise append a fresh entry built by `create` at the end. -/
def updateAt (create : ι → β) (mrg : β → ι → β) (k : K) (x : ι) :
    List (K × β) → List (K × β)
  | [] => [(k, create x)]
  | (k0, v) :: rest =>
    if k0 = k then (k0, mrg v x) :: rest
    else (k0, v) :: updateAt create mrg k x rest

/-- The aggregation loop folded over `xs`, starting from an existing map. -/
def aggFrom (keyf : ι → K) (create : ι → β) (mrg : β → ι → β)
    (agg : List (K × β)) (xs : List ι) : List (K × β) :=
  xs.foldl (fun a x => updateAt create mrg (keyf x) x a) agg

/-- The aggregation loop starting from the empty dict (`agg = {}`). -/
def aggBy (keyf : ι → K) (create : ι → β) (mrg : β → ι → β)
    (xs : List ι) : List (K × β) :=
  aggFrom keyf create mrg [] xs

/-- First-match lookup in the association list (`agg[key]` / `key in agg`). -/
def lookupKey : List (K × β) → K → Option β
  | [], _ => none
  | (k0, v) :: rest, k => if k0 = k then some v else lookupKey rest k

/-- Accumulating a plain nonempty list: `create` on the head, `mrg` folded
over the tail.  `none` on the empty list. -/
def accFold? (create : ι → β) (mrg : β → ι → β) : List ι → Option β
  | [] => none
  | x :: t => some (t.foldl mrg (create x))

/-- First-occurrence representatives of the `keyf`-classes of a list,
in order of first appearance. -/
def repsBy (keyf : ι → K) : List ι → List ι
  | [] => []
  | x :: xs => x :: repsBy keyf (xs.filter (fun y => keyf y ≠ keyf x))
termination_by l => l.length
decreasing_by
  simp only [List.length_cons]
  exact Nat.lt_succ_of_le (List.length_filter_le _ _)

end Agg

/-- Keep-first deduplication of a list of strings (first occurrence wins). -/
def dedupFirst (us : List String) : List String :=
  Agg.repsBy (fun u : String => u) us

namespace UpdateAttacks2026

/-- One raw TSV row, as the fields the script extracts from it.  String
fields carry the raw cell text (the script applies `.strip()` itself);
`lat`/`lon` carry the result of `safe_float` on the stripped cells
(`none` = parse failure). -/
structure Row where
  gid : String
  day : String
  year : String
  event_code : String
  root : String
  fullname : String
  lat : Option ℚ
  lon : Option ℚ
  sourceurl : String
deriving DecidableEq

/-- A record that survived every filter of the main loop, with the derived
fields (`date_iso`, `attack_type`, `loc_norm`) computed. -/
structure Rec where
  gid : String
  date_iso : String
  root : String
  attack_type : String
  event_code : String
  fullname : String
  loc_norm : String
  lat : ℚ
  lon : ℚ
  sourceurl : String
deriving DecidableEq

/-- The per-key accumulator dict value of `update_attacks_2026.py`. -/
structure Acc where
  date : String
  attack_type : String
  event_root_code : String
  location : String
  loc_norm : String
  lat_sum : ℚ
  lon_sum : ℚ
  n : Nat
  event_codes : Finset String
  gdelt_ids : Finset String
  sources : List String
deriving DecidableEq

/-- One emitted GeoJSON feature (geometry plus the property map). -/
structure Feature where
  lon : ℚ
  lat : ℚ
  date : String
  location : String
  attack_type : String
  event_root_code : String
  event_codes : List String
  gdelt_ids_count : Nat
  sources_count : Nat
  sources : List String
deriving DecidableEq

/-- The filter-and-extract part of the main loop body: the sequence of
`continue` guards (year, root allow-list, coordinates, date), in source
order, producing the accepted record or `none`. -/
def normalizeRow (r : Row) : Option Rec :=
  if pyStrip r.year ≠ "2026" then none
  else
    match ROOT_CODE_LABEL (pyStrip r.root) with
    | none => none
    | some lbl =>
      match r.lat, r.lon with
      | some la, some lo =>
        if yyyymmdd_to_iso (pyStrip r.day) = "" then none
        else
          some ⟨pyStrip r.gid, yyyymmdd_to_iso (pyStrip r.day), pyStrip r.root, lbl,
                pyStrip r.event_code, pyStrip r.fullname, norm_loc (pyStrip r.fullname),
                la, lo, pyStrip r.sourceurl⟩
      | _, _ => none

/-- The first-pass merge key `f"{date_iso}|{root}|{loc_norm}"`. -/
def key1 (e : Rec) : String := e.date_iso ++ "|" ++ e.root ++ "|" ++ e.loc_norm

/-- The accumulator created on first sight of a key. -/
def initAcc (e : Rec) : Acc :=
  { date := e.date_iso
    attack_type := e.attack_type
    event_root_code := e.root
    location := if e.fullname = "" then "unknown" else e.fullname
    loc_norm := e.loc_norm
    lat_sum := e.lat
    lon_sum := e.lon
    n := 1
    event_codes := if e.event_code = "" then ∅ else {e.event_code}
    gdelt_ids := if e.gid = "" then ∅ else {e.gid}
    sources := if e.sourceurl = "" then [] else [e.sourceurl] }

/-- Merging one further record into an existing accumulator. -/
def mergeRec (ev : Acc) (e : Rec) : Acc :=
  { ev with
    lat_sum := ev.lat_sum + e.lat
    lon_sum := ev.lon_sum + e.lon
    n := ev.n + 1
    location := if e.fullname ≠ "" ∧ ev.location = "unknown" then e.fullname else ev.location
    event_codes := if e.event_code = "" then ev.event_codes else insert e.event_code ev.event_codes
    gdelt_ids := if e.gid = "" then ev.gdelt_ids else insert e.gid ev.gdelt_ids
    sources := add_unique ev.sources e.sourceurl }

/-- The second-pass ("hard dedupe") key
`f"{ev['date']}|{ev['attack_type']}|{ev['loc_norm']}"`. -/
def key2acc (ev : Acc) : String := ev.date ++ "|" ++ ev.attack_type ++ "|" ++ ev.loc_norm

/-- The coarse key of a record, `f"{date_iso}|{attack_type}|{loc_norm}"`
(the key `build_2025_quarters.py` aggregates on directly). -/
def key2 (e : Rec) : String := e.date_iso ++ "|" ++ e.attack_type ++ "|" ++ e.loc_norm

/-- Merging a first-pass accumulator into a hard-dedupe accumulator:
sums and counts add, the id/code sets union, the sources fold through
`add_unique`; `location` (and the key fields) of the target are kept. -/
def mergeAcc (m : Acc) (ev : Acc) : Acc :=
  { m with
    lat_sum := m.lat_sum + ev.lat_sum
    lon_sum := m.lon_sum + ev.lon_sum
    n := m.n + ev.n
    event_codes := m.event_codes ∪ ev.event_codes
    gdelt_ids := m.gdelt_ids ∪ ev.gdelt_ids
    sources := ev.sources.foldl add_unique m.sources }

/-- Emission of one feature from one accumulator: centroid at
`(lon_sum / max 1 n, lat_sum / max 1 n)`, sorted nonempty event codes,
cardinalities, and the source list as accumulated. -/
def featureOf (ev : Acc) : Feature :=
  { lon := ev.lon_sum / (max 1 ev.n : Nat)
    lat := ev.lat_sum / (max 1 ev.n : Nat)
    date := ev.date
    location := ev.location
    attack_type := ev.attack_type
    event_root_code := ev.event_root_code
    event_codes := (ev.event_codes.filter (fun c => c ≠ "")).sort (· ≤ ·)
    gdelt_ids_count := ev.gdelt_ids.card
    sources_count := ev.sources.length
    sources := ev.sources }

/-- The output comparison key: Python sorts ascending by
`(date, sources_count)` with `reverse=True` and a stable sort, i.e. `f`
goes before `g` iff `g`'s key is lexicographically ≤ `f`'s. -/
def featLe (f g : Feature) : Prop :=
  g.date < f.date ∨ (g.date = f.date ∧ g.sources_count ≤ f.sources_count)

instance : DecidableRel featLe := fun f g => by
  unfold featLe
  exact inferInstance

/-- The first aggregation pass of `update_attacks_2026.py` over the
accepted records. -/
def fineAgg (recs : List Rec) : List (String × Acc) :=
  Agg.aggBy key1 initAcc mergeRec recs

/-- The second ("hard dedupe") pass: re-key the first pass's accumulator
values; a first entry for a key is the accumulator itself. -/
def hardAgg (recs : List Rec) : List (String × Acc) :=
  Agg.aggBy key2acc (fun ev => ev) mergeAcc ((fineAgg recs).map Prod.snd)

/-- Full treatment of a list of accepted records: both passes, emission,
final stable sort (descending `(date, sources_count)`). -/
def runRecs (recs : List Rec) : List Feature :=
  List.insertionSort featLe (((hardAgg recs).map Prod.snd).map featureOf)

/-- The whole per-run pipeline on raw rows: filters, both aggregation
passes, emission, output ordering.  The run is a pure function of the
fetched rows — it reads nothing back from a previous output. -/
def processRows (rows : List Row) : List Feature :=
  runRecs (rows.filterMap normalizeRow)

/-- Single coarse-keyed aggregation of the same records: one pass keyed
directly on `date|attack_type|loc_norm` with the same create/merge
(this is literally what `build_2025_quarters.py` does), then the same
emission and ordering. -/
def coarseProcess (rows : List Row) : List Feature :=
  List.insertionSort featLe
    (((Agg.aggBy key2 initAcc mergeRec (rows.filterMap normalizeRow)).map Prod.snd).map featureOf)

/-- Modelled from the spec: the incremental/"live" re-run described in
§4.3 of the spec — reload the previously emitted output, skip every newly
fetched record whose stable id is in the already-seen set, and append the
genuinely new accumulators.  No such reload exists anywhere in `src/`
(and the emitted features carry only `gdelt_ids_count`, not the raw ids,
so the seen-id set could not even be re-extracted from a previous output;
it is therefore a parameter here). -/
def incrementalRunSpec (prev : List Feature) (prevIds : Finset String)
    (rows : List Row) : List Feature :=
  prev ++ processRows (rows.filter (fun r => pyStrip r.gid ∉ prevIds))

end UpdateAttacks2026

namespace Agg

variable {K ι β : Type} [DecidableEq K]
variable {keyf : ι → K} {create : ι → β} {mrg : β → ι → β}

theorem lookupKey_updateAt (k key : K) (x : ι) (agg : List (K × β)) :
    lookupKey (updateAt create mrg k x agg) key =
      if key = k then
        some (match lookupKey agg k with
              | none => create x
              | some v => mrg v x)
      else lookupKey agg key := by
  induction agg with
  | nil =>
    by_cases h : key = k
    · subst h
      simp [updateAt, lookupKey]
    · simp [updateAt, lookupKey, h, Ne.symm h]
  | cons kv rest ih =>
    obtain ⟨k0, v⟩ := kv
    by_cases h0 : k0 = k
    · subst h0
      by_cases h : key = k0
      · subst h
        simp [updateAt, lookupKey]
      · simp [updateAt, lookupKey, h, Ne.symm h]
    · by_cases h : key = k0
      · subst h
        simp [updateAt, lookupKey, h0]
      · simp [updateAt, lookupKey, h0, Ne.symm h, ih]

theorem mem_updateAt {k : K} {x : ι} {agg : List (K × β)} {kv : K × β}
    (h : kv ∈ updateAt create mrg k x agg) :
    kv ∈ agg ∨ (∃ v, (k, v) ∈ agg ∧ kv = (k, mrg v x)) ∨ kv = (k, create x) := by
  induction agg with
  | nil =>
    simp [updateAt] at h
    exact Or.inr (Or.inr h)
  | cons kv0 rest ih =>
    obtain ⟨k0, v⟩ := kv0
    by_cases h0 : k0 = k
    · subst h0
      simp [updateAt] at h
      rcases h with h | h
      · exact Or.inr (Or.inl ⟨v, by simp, h⟩)
      · exact Or.inl (by simp [h])
    · simp [updateAt, h0] at h
      rcases h with h | h
      · exact Or.inl (by simp [h])
      · rcases ih h with h' | h' | h'
        · exact Or.inl (by simp [h'])
        · obtain ⟨w, hw, hkv⟩ := h'
          exact Or.inr (Or.inl ⟨w, by simp [hw], hkv⟩)
        · exact Or.inr (Or.inr h')

theorem map_fst_updateAt (k : K) (x : ι) (agg : List (K × β)) :
    (updateAt create mrg k x agg).map Prod.fst =
      if k ∈ agg.map Prod.fst then agg.map Prod.fst
      else agg.map Prod.fst ++ [k] := by
  induction agg with
  | nil => simp [updateAt]
  | cons kv rest ih =>
    obtain ⟨k0, v⟩ := kv
    by_cases h0 : k0 = k
    · subst h0
      simp [updateAt]
    · by_cases hmem : k ∈ rest.map Prod.fst <;>
        simp [updateAt, h0, ih, hmem, Ne.symm h0]

theorem aggFrom_cons (agg : List (K × β)) (x : ι) (xs : List ι) :
    aggFrom keyf create mrg agg (x :: xs) =
      aggFrom keyf create mrg (updateAt create mrg (keyf x) x agg) xs := rfl

theorem lookupKey_aggFrom (xs : List ι) (agg : List (K × β)) (key : K) :
    lookupKey (aggFrom keyf create mrg agg xs) key =
      match lookupKey agg key with
      | some v => some ((xs.filter (fun x => keyf x = key)).foldl mrg v)
      | none => accFold? create mrg (xs.filter (fun x => keyf x = key)) := by
  induction xs generalizing agg with
  | nil => cases h : lookupKey agg key <;> simp [aggFrom, accFold?, h]
  | cons x xs ih =>
    rw [aggFrom_cons, ih, lookupKey_updateAt]
    by_cases hk : key = keyf x
    · rw [if_pos hk, ← hk]
      have hfilter : List.filter (fun y => decide (keyf y = key)) (x :: xs) =
          x :: List.filter (fun y => decide (keyf y = key)) xs := by
        simp [List.filter_cons, hk.symm]
      rw [hfilter]
      cases h : lookupKey agg key with
      | none => simp [accFold?]
      | some v => simp
    · rw [if_neg hk]
      have hfilter : List.filter (fun y => decide (keyf y = key)) (x :: xs) =
          List.filter (fun y => decide (keyf y = key)) xs := by
        have hne : keyf x ≠ key := fun e => hk e.symm
        simp [List.filter_cons, hne]
      rw [hfilter]

theorem lookupKey_aggBy (xs : List ι) (key : K) :
    lookupKey (aggBy keyf create mrg xs) key =
      accFold? create mrg (xs.filter (fun x => keyf x = key)) := by
  rw [aggBy, lookupKey_aggFrom]
  rfl

end Agg

namespace Agg

variable {K ι β : Type} [DecidableEq K]
variable {keyf : ι → K} {create : ι → β} {mrg : β → ι → β}

theorem repsBy_cons (x : ι) (xs : List ι) :
    repsBy keyf (x :: xs) = x :: repsBy keyf (xs.filter (fun y => keyf y ≠ keyf x)) := by
  rw [repsBy]

theorem mem_repsBy (l : List ι) (r : ι) : r ∈ repsBy keyf l → r ∈ l := by
  induction l using repsBy.induct keyf with
  | case1 => intro h; simp [repsBy] at h
  | case2 x xs ih =>
    intro h
    rw [repsBy_cons] at h
    rcases List.mem_cons.mp h with h | h
    · simp [h]
    · exact List.mem_cons_of_mem _ (List.mem_of_mem_filter (ih h))

theorem key_ne_of_mem_repsBy_filter {x r : ι} {xs : List ι}
    (h : r ∈ repsBy keyf (xs.filter (fun y => keyf y ≠ keyf x))) :
    keyf r ≠ keyf x := by
  have hmem := mem_repsBy _ _ h
  have := List.of_mem_filter hmem
  simpa using this

theorem map_keyf_repsBy_nodup (l : List ι) : ((repsBy keyf l).map keyf).Nodup := by
  induction l using repsBy.induct keyf with
  | case1 => simp [repsBy]
  | case2 x xs ih =>
    rw [repsBy_cons]
    simp only [List.map_cons, List.nodup_cons]
    refine ⟨?_, ih⟩
    intro hmem
    simp only [List.mem_map] at hmem
    obtain ⟨r, hr, hkey⟩ := hmem
    exact key_ne_of_mem_repsBy_filter hr hkey

theorem mem_map_keyf_repsBy (l : List ι) (k : K) :
    k ∈ (repsBy keyf l).map keyf ↔ ∃ x ∈ l, keyf x = k := by
  induction l using repsBy.induct keyf with
  | case1 => simp [repsBy]
  | case2 x xs ih =>
    rw [repsBy_cons]
    simp only [List.map_cons, List.mem_cons]
    constructor
    · rintro (h | h)
      · exact ⟨x, by simp, h.symm⟩
      · obtain ⟨y, hy, hk⟩ := ih.mp h
        exact ⟨y, Or.inr (List.mem_of_mem_filter hy), hk⟩
    · rintro ⟨y, hy, hk⟩
      rcases hy with rfl | hy
      · exact Or.inl hk.symm
      · by_cases hxy : keyf y = keyf x
        · exact Or.inl (hxy ▸ hk).symm
        · refine Or.inr (ih.mpr ⟨y, ?_, hk⟩)
          exact List.mem_filter.mpr ⟨hy, by simp [hxy]⟩

theorem isFirst_repsBy (l : List ι) (r : ι) :
    r ∈ repsBy keyf l → ∃ t, l.filter (fun y => keyf y = keyf r) = r :: t := by
  induction l using repsBy.induct keyf with
  | case1 => intro h; simp [repsBy] at h
  | case2 x xs ih =>
    intro h
    rw [repsBy_cons] at h
    rcases List.mem_cons.mp h with rfl | h
    · exact ⟨xs.filter (fun y => keyf y = keyf r), by simp [List.filter_cons]⟩
    · have hne : keyf r ≠ keyf x := key_ne_of_mem_repsBy_filter h
      obtain ⟨t, ht⟩ := ih h
      refine ⟨t, ?_⟩
      have hx : ¬ keyf x = keyf r := fun e => hne e.symm
      rw [List.filter_cons, if_neg (by simp [hx]), ← ht, List.filter_filter]
      apply List.filter_congr
      intro y hy
      by_cases hyr : keyf y = keyf r
      · simp [hyr, hne]
      · simp [hyr]

theorem repsBy_congr {keyg : ι → K} (l : List ι) :
    (∀ a ∈ l, ∀ b ∈ l, (keyf a = keyf b ↔ keyg a = keyg b)) →
    repsBy keyf l = repsBy keyg l := by
  induction l using repsBy.induct keyf with
  | case1 => intro _; simp [repsBy]
  | case2 x xs ih =>
    intro h
    have hfilter : xs.filter (fun y => keyf y ≠ keyf x) =
        xs.filter (fun y => keyg y ≠ keyg x) := by
      apply List.filter_congr
      intro y hy
      have hiff := h y (by simp [hy]) x (by simp)
      by_cases hy' : keyf y = keyf x
      · simp [hy', hiff.mp hy']
      · have hg : ¬ keyg y = keyg x := fun e => hy' (hiff.mpr e)
        simp [hy', hg]
    rw [repsBy_cons, repsBy_cons, ← hfilter]
    congr 1
    apply ih
    intro a ha b hb
    exact h a (List.mem_cons_of_mem _ (List.mem_of_mem_filter ha))
      b (List.mem_cons_of_mem _ (List.mem_of_mem_filter hb))

end Agg

namespace Agg

variable {K ι β : Type} [DecidableEq K]
variable {keyf : ι → K} {create : ι → β} {mrg : β → ι → β}

theorem map_fst_aggFrom (xs : List ι) (agg : List (K × β)) :
    (aggFrom keyf create mrg agg xs).map Prod.fst =
      agg.map Prod.fst ++
        (repsBy keyf (xs.filter (fun x => keyf x ∉ agg.map Prod.fst))).map keyf := by
  induction xs generalizing agg with
  | nil => simp [aggFrom, repsBy]
  | cons x xs ih =>
    rw [aggFrom_cons, ih, map_fst_updateAt]
    by_cases hmem : keyf x ∈ agg.map Prod.fst
    · rw [if_pos hmem, List.filter_cons, if_neg (by simp [hmem])]
    · rw [if_neg hmem, List.filter_cons, if_pos (by simp [hmem]), repsBy_cons]
      have hfilters : xs.filter
            (fun y => keyf y ∉ (agg.map Prod.fst ++ [keyf x])) =
          (xs.filter (fun y => keyf y ∉ agg.map Prod.fst)).filter
            (fun y => keyf y ≠ keyf x) := by
        rw [List.filter_filter]
        apply List.filter_congr
        intro y hy
        by_cases h1 : keyf y = keyf x
        · simp [h1]
        · by_cases h2 : keyf y ∈ agg.map Prod.fst <;> simp [h1, h2]
      rw [hfilters]
      simp

theorem map_fst_aggBy (xs : List ι) :
    (aggBy keyf create mrg xs).map Prod.fst = (repsBy keyf xs).map keyf := by
  rw [aggBy, map_fst_aggFrom]
  simp

theorem map_fst_aggBy_nodup (xs : List ι) :
    ((aggBy keyf create mrg xs).map Prod.fst).Nodup := by
  rw [map_fst_aggBy]
  exact map_keyf_repsBy_nodup xs

theorem map_snd_eq_map_lookup (agg : List (K × β)) (d : β)
    (h : (agg.map Prod.fst).Nodup) :
    agg.map Prod.snd = (agg.map Prod.fst).map (fun k => (lookupKey agg k).getD d) := by
  induction agg with
  | nil => simp
  | cons kv rest ih =>
    obtain ⟨k0, v⟩ := kv
    simp only [List.map_cons, List.nodup_cons] at h
    rw [List.map_cons, List.map_cons, List.map_cons]
    congr 1
    · simp [lookupKey]
    · rw [ih h.2, List.map_map, List.map_map]
      apply List.map_congr_left
      intro kv hkv
      have hne : k0 ≠ kv.1 := fun e => h.1 (by simpa [← e] using List.mem_map_of_mem Prod.fst hkv)
      simp [lookupKey, hne]

theorem map_snd_aggBy (xs : List ι) (d : β) :
    (aggBy keyf create mrg xs).map Prod.snd =
      (repsBy keyf xs).map
        (fun r => (accFold? create mrg (xs.filter (fun y => keyf y = keyf r))).getD d) := by
  rw [map_snd_eq_map_lookup (aggBy keyf create mrg xs) d (map_fst_aggBy_nodup xs),
    map_fst_aggBy, List.map_map]
  apply List.map_congr_left
  intro r hr
  simp only [Function.comp_apply]
  rw [lookupKey_aggBy]

theorem forall_snd_aggFrom {P : β → Prop} (xs : List ι) (agg : List (K × β))
    (hagg : ∀ kv ∈ agg, P kv.2)
    (hc : ∀ x ∈ xs, P (create x))
    (hm : ∀ b, ∀ x ∈ xs, P b → P (mrg b x)) :
    ∀ kv ∈ aggFrom keyf create mrg agg xs, P kv.2 := by
  induction xs generalizing agg with
  | nil => exact fun kv hkv => hagg kv hkv
  | cons x xs ih =>
    rw [aggFrom_cons]
    apply ih
    · intro kv hkv
      rcases mem_updateAt hkv with hkv' | ⟨v, hv, rfl⟩ | rfl
      · exact hagg kv hkv'
      · exact hm v x (by simp) (hagg (keyf x, v) hv)
      · exact hc x (by simp)
    · exact fun y hy => hc y (List.mem_cons_of_mem _ hy)
    · exact fun b y hy hb => hm b y (List.mem_cons_of_mem _ hy) hb

theorem forall_snd_aggBy {P : β → Prop} (xs : List ι)
    (hc : ∀ x ∈ xs, P (create x))
    (hm : ∀ b, ∀ x ∈ xs, P b → P (mrg b x)) :
    ∀ kv ∈ aggBy keyf create mrg xs, P kv.2 :=
  forall_snd_aggFrom xs [] (by simp) hc hm

theorem updateAt_of_notMem {k : K} (x : ι) {agg : List (K × β)}
    (h : k ∉ agg.map Prod.fst) :
    updateAt create mrg k x agg = agg ++ [(k, create x)] := by
  induction agg with
  | nil => simp [updateAt]
  | cons kv rest ih =>
    obtain ⟨k0, v⟩ := kv
    simp only [List.map_cons, List.mem_cons] at h
    rw [updateAt, if_neg (fun e => h (Or.inl e.symm))]
    rw [ih (fun hmem => h (Or.inr hmem))]
    simp

theorem aggFrom_of_nodup_keys (xs : List ι) (agg : List (K × β))
    (hdisj : ∀ x ∈ xs, keyf x ∉ agg.map Prod.fst)
    (hnodup : (xs.map keyf).Nodup) :
    aggFrom keyf create mrg agg xs = agg ++ xs.map (fun x => (keyf x, create x)) := by
  induction xs generalizing agg with
  | nil => simp [aggFrom]
  | cons x xs ih =>
    rw [aggFrom_cons, updateAt_of_notMem x (hdisj x (by simp))]
    simp only [List.map_cons, List.nodup_cons] at hnodup
    rw [ih (agg ++ [(keyf x, create x)]) ?_ hnodup.2]
    · simp
    · intro y hy
      simp only [List.map_append, List.mem_append]
      rintro (hmem | hmem)
      · exact hdisj y (List.mem_cons_of_mem _ hy) hmem
      · simp at hmem
        exact hnodup.1 (hmem ▸ List.mem_map_of_mem keyf hy)

theorem map_snd_aggBy_of_nodup_keys (xs : List ι)
    (hnodup : (xs.map keyf).Nodup) :
    (aggBy keyf create mrg xs).map Prod.snd = xs.map create := by
  rw [aggBy, aggFrom_of_nodup_keys xs [] (by simp) hnodup]
  simp

end Agg

namespace UpdateAttacks2026

/-- The optional nonempty event code of a record (what the merge adds to
`event_codes`). -/
def codeOf (e : Rec) : Option String :=
  if e.event_code = "" then none else some e.event_code

/-- The optional nonempty gdelt id of a record (what the merge adds to
`gdelt_ids`). -/
def gidOf (e : Rec) : Option String :=
  if e.gid = "" then none else some e.gid

/-- The display location a record list produces: the first `fullname` that
is neither empty nor the literal string `"unknown"`; `"unknown"` if none. -/
def locFirst (l : List Rec) : String :=
  ((l.map Rec.fullname).find? (fun s => s ≠ "" ∧ s ≠ "unknown")).getD "unknown"

theorem foldl_mergeRec_date (l : List Rec) (a : Acc) :
    (l.foldl mergeRec a).date = a.date := by
  induction l generalizing a with
  | nil => rfl
  | cons x l ih => rw [List.foldl_cons, ih]; rfl

theorem foldl_mergeRec_attack_type (l : List Rec) (a : Acc) :
    (l.foldl mergeRec a).attack_type = a.attack_type := by
  induction l generalizing a with
  | nil => rfl
  | cons x l ih => rw [List.foldl_cons, ih]; rfl

theorem foldl_mergeRec_root (l : List Rec) (a : Acc) :
    (l.foldl mergeRec a).event_root_code = a.event_root_code := by
  induction l generalizing a with
  | nil => rfl
  | cons x l ih => rw [List.foldl_cons, ih]; rfl

theorem foldl_mergeRec_loc_norm (l : List Rec) (a : Acc) :
    (l.foldl mergeRec a).loc_norm = a.loc_norm := by
  induction l generalizing a with
  | nil => rfl
  | cons x l ih => rw [List.foldl_cons, ih]; rfl

theorem foldl_mergeRec_n (l : List Rec) (a : Acc) :
    (l.foldl mergeRec a).n = a.n + l.length := by
  induction l generalizing a with
  | nil => rfl
  | cons x l ih =>
    rw [List.foldl_cons, ih]
    simp [mergeRec]
    omega

theorem foldl_mergeRec_lat_sum (l : List Rec) (a : Acc) :
    (l.foldl mergeRec a).lat_sum = a.lat_sum + (l.map Rec.lat).sum := by
  induction l generalizing a with
  | nil => simp
  | cons x l ih =>
    rw [List.foldl_cons, ih]
    simp [mergeRec]
    ring

theorem foldl_mergeRec_lon_sum (l : List Rec) (a : Acc) :
    (l.foldl mergeRec a).lon_sum = a.lon_sum + (l.map Rec.lon).sum := by
  induction l generalizing a with
  | nil => simp
  | cons x l ih =>
    rw [List.foldl_cons, ih]
    simp [mergeRec]
    ring

theorem foldl_mergeRec_event_codes (l : List Rec) (a : Acc) :
    (l.foldl mergeRec a).event_codes = a.event_codes ∪ (l.filterMap codeOf).toFinset := by
  induction l generalizing a with
  | nil => simp
  | cons x l ih =>
    rw [List.foldl_cons, ih]
    by_cases h : x.event_code = ""
    · simp [mergeRec, codeOf, h]
    · simp only [mergeRec, codeOf, h, if_neg h, List.filterMap_cons]
      simp [List.toFinset_cons, Finset.union_insert, Finset.insert_union]

theorem foldl_mergeRec_gdelt_ids (l : List Rec) (a : Acc) :
    (l.foldl mergeRec a).gdelt_ids = a.gdelt_ids ∪ (l.filterMap gidOf).toFinset := by
  induction l generalizing a with
  | nil => simp
  | cons x l ih =>
    rw [List.foldl_cons, ih]
    by_cases h : x.gid = ""
    · simp [mergeRec, gidOf, h]
    · simp only [mergeRec, gidOf, h, if_neg h, List.filterMap_cons]
      simp [List.toFinset_cons, Finset.union_insert, Finset.insert_union]

theorem foldl_mergeRec_sources (l : List Rec) (a : Acc) :
    (l.foldl mergeRec a).sources = (l.map Rec.sourceurl).foldl add_unique a.sources := by
  induction l generalizing a with
  | nil => rfl
  | cons x l ih => rw [List.foldl_cons, ih]; rfl

theorem foldl_mergeRec_location (l : List Rec) (a : Acc) :
    (l.foldl mergeRec a).location =
      if a.location = "unknown" then locFirst l else a.location := by
  induction l generalizing a with
  | nil =>
    by_cases h : a.location = "unknown" <;> simp [locFirst, h]
  | cons x l ih =>
    rw [List.foldl_cons, ih]
    by_cases ha : a.location = "unknown"
    · by_cases h1 : x.fullname = ""
      · simp [mergeRec, ha, h1, locFirst, List.find?_cons]
      · by_cases h2 : x.fullname = "unknown"
        · simp [mergeRec, ha, h1, h2, locFirst, List.find?_cons]
        · simp [mergeRec, ha, h1, h2, locFirst, List.find?_cons]
    · have : (mergeRec a x).location = a.location := by
        simp [mergeRec, ha]
      rw [this]
      simp [ha]

theorem initAcc_sources (e : Rec) :
    (initAcc e).sources = add_unique [] e.sourceurl := by
  by_cases h : e.sourceurl = "" <;>
    simp [initAcc, add_unique, h, MAX_SOURCES_PER_EVENT]

theorem initAcc_event_codes (e : Rec) :
    (initAcc e).event_codes = ([e].filterMap codeOf).toFinset := by
  by_cases h : e.event_code = "" <;> simp [initAcc, codeOf, h]

theorem initAcc_gdelt_ids (e : Rec) :
    (initAcc e).gdelt_ids = ([e].filterMap gidOf).toFinset := by
  by_cases h : e.gid = "" <;> simp [initAcc, gidOf, h]

theorem initAcc_location (e : Rec) :
    (initAcc e).location = if (e.fullname = "" ∨ e.fullname = "unknown")
      then "unknown" else e.fullname := by
  by_cases h1 : e.fullname = ""
  · simp [initAcc, h1]
  · by_cases h2 : e.fullname = "unknown" <;> simp [initAcc, h1, h2]

/-- Full characterization of the accumulator built from a nonempty class
of records: every field is a simple function of the record list. -/
theorem classAcc_spec (x : Rec) (t : List Rec) :
    (t.foldl mergeRec (initAcc x)).date = x.date_iso ∧
    (t.foldl mergeRec (initAcc x)).attack_type = x.attack_type ∧
    (t.foldl mergeRec (initAcc x)).event_root_code = x.root ∧
    (t.foldl mergeRec (initAcc x)).loc_norm = x.loc_norm ∧
    (t.foldl mergeRec (initAcc x)).n = (x :: t).length ∧
    (t.foldl mergeRec (initAcc x)).lat_sum = ((x :: t).map Rec.lat).sum ∧
    (t.foldl mergeRec (initAcc x)).lon_sum = ((x :: t).map Rec.lon).sum ∧
    (t.foldl mergeRec (initAcc x)).event_codes = ((x :: t).filterMap codeOf).toFinset ∧
    (t.foldl mergeRec (initAcc x)).gdelt_ids = ((x :: t).filterMap gidOf).toFinset ∧
    (t.foldl mergeRec (initAcc x)).sources =
      ((x :: t).map Rec.sourceurl).foldl add_unique [] ∧
    (t.foldl mergeRec (initAcc x)).location = locFirst (x :: t) := by
  refine ⟨?_, ?_, ?_, ?_, ?_, ?_, ?_, ?_, ?_, ?_, ?_⟩
  · rw [foldl_mergeRec_date]; rfl
  · rw [foldl_mergeRec_attack_type]; rfl
  · rw [foldl_mergeRec_root]; rfl
  · rw [foldl_mergeRec_loc_norm]; rfl
  · rw [foldl_mergeRec_n]; simp [initAcc]; omega
  · rw [foldl_mergeRec_lat_sum]; simp [initAcc]
  · rw [foldl_mergeRec_lon_sum]; simp [initAcc]
  · rw [foldl_mergeRec_event_codes, initAcc_event_codes]
    by_cases h : x.event_code = "" <;>
      simp [codeOf, h, List.filterMap_cons, List.toFinset_cons, ← Finset.insert_eq]
  · rw [foldl_mergeRec_gdelt_ids, initAcc_gdelt_ids]
    by_cases h : x.gid = "" <;>
      simp [gidOf, h, List.filterMap_cons, List.toFinset_cons, ← Finset.insert_eq]
  · rw [foldl_mergeRec_sources, initAcc_sources]
    rfl
  · rw [foldl_mergeRec_location, initAcc_location]
    by_cases h1 : x.fullname = ""
    · simp [h1, locFirst, List.find?_cons]
    · by_cases h2 : x.fullname = "unknown"
      · simp [h1, h2, locFirst, List.find?_cons]
      · simp [h1, h2, locFirst, List.find?_cons]

end UpdateAttacks2026

namespace UpdateAttacks2026

theorem cons_ne_head {c d : Char} {l1 l2 : List Char} (h : c ≠ d) :
    c :: l1 ≠ d :: l2 := fun e => h (by injection e)

/-- Splitting a `prefix ++ "|" ++ rest` character list at the separator is
unambiguous as soon as the two prefixes have equal length (no
separator-freeness is needed then). -/
theorem pipe_data_split {da db xa xb : List Char} (hlen : da.length = db.length)
    (h : da ++ '|' :: xa = db ++ '|' :: xb) : da = db ∧ xa = xb := by
  obtain ⟨h1, h2⟩ := List.append_inj h hlen
  exact ⟨h1, by injection h2⟩

theorem key_data (d r l : String) :
    (d ++ "|" ++ r ++ "|" ++ l).data = d.data ++ '|' :: (r.data ++ '|' :: l.data) := by
  simp [String.data_append]

/-- A nonempty result of `yyyymmdd_to_iso` always has exactly 10
characters (`YYYY-MM-DD`). -/
theorem yyyymmdd_to_iso_length {s : String} (h : yyyymmdd_to_iso s ≠ "") :
    (yyyymmdd_to_iso s).length = 10 := by
  unfold yyyymmdd_to_iso at h ⊢
  by_cases hc : s = "" ∨ s.length ≠ 8
  · rw [if_pos hc] at h
    exact absurd rfl h
  · rw [if_neg hc]
    push_neg at hc
    have hdata : s.data.length = 8 := hc.2
    simp [String.length_append, String.length_mk, List.length_take,
      List.length_drop, hdata]
    rfl

/-- A record produced by the normalizer: its ISO date has length 10 and
its `attack_type` is the `ROOT_CODE_LABEL` image of its root code. -/
def GoodRec (e : Rec) : Prop :=
  e.date_iso.length = 10 ∧ ROOT_CODE_LABEL e.root = some e.attack_type

theorem normalizeRow_good {r : Row} {e : Rec} (h : normalizeRow r = some e) :
    GoodRec e := by
  unfold normalizeRow at h
  by_cases hy : pyStrip r.year ≠ "2026"
  · rw [if_pos hy] at h
    exact absurd h (by simp)
  · rw [if_neg hy] at h
    cases hlbl : ROOT_CODE_LABEL (pyStrip r.root) with
    | none =>
      rw [hlbl] at h
      exact absurd h (by simp)
    | some lbl =>
      rw [hlbl] at h
      cases hlat : r.lat with
      | none =>
        rw [hlat] at h
        simp at h
      | some la =>
        cases hlon : r.lon with
        | none =>
          rw [hlat, hlon] at h
          simp at h
        | some lo =>
          rw [hlat, hlon] at h
          simp only [] at h
          by_cases hdate : yyyymmdd_to_iso (pyStrip r.day) = ""
          · rw [if_pos hdate] at h
            exact absurd h (by simp)
          · rw [if_neg hdate] at h
            have he := Option.some.inj h
            constructor
            · rw [← he]
              exact yyyymmdd_to_iso_length hdate
            · rw [← he]
              exact hlbl

theorem good_root_cases {e : Rec} (h : GoodRec e) :
    (e.root = "18" ∧ e.attack_type = "assault") ∨
    (e.root = "19" ∧ e.attack_type = "fight") ∨
    (e.root = "20" ∧ e.attack_type = "mass_violence") := by
  obtain ⟨-, h2⟩ := h
  unfold ROOT_CODE_LABEL at h2
  split_ifs at h2 with h18 h19 h20
  · exact Or.inl ⟨h18, (Option.some.inj h2).symm⟩
  · exact Or.inr (Or.inl ⟨h19, (Option.some.inj h2).symm⟩)
  · exact Or.inr (Or.inr ⟨h20, (Option.some.inj h2).symm⟩)

theorem good_root_length {e : Rec} (h : GoodRec e) : e.root.length = 2 := by
  rcases good_root_cases h with ⟨h1, -⟩ | ⟨h1, -⟩ | ⟨h1, -⟩ <;> rw [h1] <;> rfl

theorem label_pipe_split {la lb : String} {xa xb : List Char}
    (hla : la = "assault" ∨ la = "fight" ∨ la = "mass_violence")
    (hlb : lb = "assault" ∨ lb = "fight" ∨ lb = "mass_violence")
    (h : la.data ++ '|' :: xa = lb.data ++ '|' :: xb) : la = lb ∧ xa = xb := by
  rcases hla with rfl | rfl | rfl <;> rcases hlb with rfl | rfl | rfl <;>
    first
      | exact ⟨rfl, by
          have h2 := (List.append_inj h rfl).2
          injection h2⟩
      | exact absurd h (cons_ne_head (by decide))

/-- Two normalizer-produced records get equal fine keys iff their date,
root and normalized place agree componentwise. -/
theorem key1_eq_iff {a b : Rec} (ha : GoodRec a) (hb : GoodRec b) :
    key1 a = key1 b ↔
      (a.date_iso = b.date_iso ∧ a.root = b.root ∧ a.loc_norm = b.loc_norm) := by
  constructor
  · intro h
    have hd := congrArg String.data h
    rw [key1, key1, key_data, key_data] at hd
    have hlen : a.date_iso.data.length = b.date_iso.data.length := by
      have l1 : a.date_iso.data.length = 10 := ha.1
      have l2 : b.date_iso.data.length = 10 := hb.1
      omega
    obtain ⟨h1, h2⟩ := pipe_data_split hlen hd
    have hlen2 : a.root.data.length = b.root.data.length := by
      have l1 : a.root.data.length = 2 := good_root_length ha
      have l2 : b.root.data.length = 2 := good_root_length hb
      omega
    obtain ⟨h3, h4⟩ := pipe_data_split hlen2 h2
    exact ⟨String.ext h1, String.ext h3, String.ext h4⟩
  · rintro ⟨h1, h2, h3⟩
    rw [key1, key1, h1, h2, h3]

/-- The label of a good record determines its root code. -/
theorem good_attack_inj {a b : Rec} (ha : GoodRec a) (hb : GoodRec b)
    (h : a.attack_type = b.attack_type) : a.root = b.root := by
  rcases good_root_cases ha with ⟨r1, l1⟩ | ⟨r1, l1⟩ | ⟨r1, l1⟩ <;>
    rcases good_root_cases hb with ⟨r2, l2⟩ | ⟨r2, l2⟩ | ⟨r2, l2⟩ <;>
      first
        | (exfalso; rw [l1, l2] at h; exact absurd h (by decide))
        | rw [r1, r2]

/-- Two normalizer-produced records get equal coarse keys iff they get
equal fine keys: the root ↦ label table is injective and the key strings
split unambiguously. -/
theorem key2_eq_iff_key1 {a b : Rec} (ha : GoodRec a) (hb : GoodRec b) :
    key2 a = key2 b ↔ key1 a = key1 b := by
  constructor
  · intro h
    have hd := congrArg String.data h
    rw [key2, key2, key_data, key_data] at hd
    have hlen : a.date_iso.data.length = b.date_iso.data.length := by
      have l1 : a.date_iso.data.length = 10 := ha.1
      have l2 : b.date_iso.data.length = 10 := hb.1
      omega
    obtain ⟨h1, h2⟩ := pipe_data_split hlen hd
    have hlab :=
      label_pipe_split
        (by rcases good_root_cases ha with ⟨-, hl⟩ | ⟨-, hl⟩ | ⟨-, hl⟩ <;> simp [hl])
        (by rcases good_root_cases hb with ⟨-, hl⟩ | ⟨-, hl⟩ | ⟨-, hl⟩ <;> simp [hl]) h2
    refine (key1_eq_iff ha hb).mpr
      ⟨String.ext h1, good_attack_inj ha hb hlab.1, String.ext hlab.2⟩
  · intro h
    obtain ⟨h1, h2, h3⟩ := (key1_eq_iff ha hb).mp h
    have h4 : a.attack_type = b.attack_type := by
      have := ha.2
      rw [h2, hb.2] at this
      exact (Option.some.inj this).symm
    rw [key2, key2, h1, h3, h4]

end UpdateAttacks2026

namespace Agg

variable {K ι β : Type} [DecidableEq K]

theorem lookupKey_mem {agg : List (K × β)} {k : K} {v : β}
    (h : lookupKey agg k = some v) : v ∈ agg.map Prod.snd := by
  induction agg with
  | nil => simp [lookupKey] at h
  | cons kv rest ih =>
    obtain ⟨k0, v0⟩ := kv
    rw [lookupKey] at h
    by_cases hk : k0 = k
    · rw [if_pos hk] at h
      simp [Option.some.inj h]
    · rw [if_neg hk] at h
      exact List.mem_cons_of_mem _ (ih h)

end Agg

namespace UpdateAttacks2026

/-- Junk default accumulator for `Option.getD` (never actually selected). -/
def junkAcc : Acc := ⟨"", "", "", "", "", 0, 0, 0, ∅, ∅, []⟩

theorem recs_good (rows : List Row) :
    ∀ e ∈ rows.filterMap normalizeRow, GoodRec e := by
  intro e he
  obtain ⟨r, -, hr⟩ := List.mem_filterMap.mp he
  exact normalizeRow_good hr

theorem fineAgg_values (recs : List Rec) :
    (fineAgg recs).map Prod.snd =
      (Agg.repsBy key1 recs).map
        (fun r => (Agg.accFold? initAcc mergeRec
          (recs.filter (fun y => key1 y = key1 r))).getD junkAcc) :=
  Agg.map_snd_aggBy recs junkAcc

theorem fineVal_key2 {recs : List Rec} {r : Rec}
    (hr : r ∈ Agg.repsBy key1 recs) :
    key2acc ((Agg.accFold? initAcc mergeRec
      (recs.filter (fun y => key1 y = key1 r))).getD junkAcc) = key2 r := by
  obtain ⟨t, ht⟩ := Agg.isFirst_repsBy recs r hr
  rw [ht]
  show key2acc (t.foldl mergeRec (initAcc r)) = key2 r
  rw [key2acc, foldl_mergeRec_date, foldl_mergeRec_attack_type, foldl_mergeRec_loc_norm]
  rfl

theorem map_key2acc_fineAgg (recs : List Rec) :
    ((fineAgg recs).map Prod.snd).map key2acc = (Agg.repsBy key1 recs).map key2 := by
  rw [fineAgg_values, List.map_map]
  apply List.map_congr_left
  intro r hr
  exact fineVal_key2 hr

theorem map_key2_reps_nodup (recs : List Rec) (hgood : ∀ e ∈ recs, GoodRec e) :
    ((Agg.repsBy key1 recs).map key2).Nodup := by
  have h1 : ((Agg.repsBy key1 recs).map key1).Nodup := Agg.map_keyf_repsBy_nodup recs
  have h2 : (Agg.repsBy key1 recs).Pairwise (fun a b => key1 a ≠ key1 b) :=
    (List.pairwise_map).mp h1
  have h3 : (Agg.repsBy key1 recs).Pairwise (fun a b => key2 a ≠ key2 b) := by
    apply List.Pairwise.imp_of_mem ?_ h2
    intro a b ha hb hne he
    have hga := hgood a (Agg.mem_repsBy _ _ ha)
    have hgb := hgood b (Agg.mem_repsBy _ _ hb)
    exact hne ((key2_eq_iff_key1 hga hgb).mp he)
  exact (List.pairwise_map).mpr h3

/-- The hard-dedupe pass is a no-op regrouping: the fine keys already
separate the accumulators by coarse key, so its values are exactly the
first pass's values. -/
theorem hardAgg_values (recs : List Rec) (hgood : ∀ e ∈ recs, GoodRec e) :
    (hardAgg recs).map Prod.snd = (fineAgg recs).map Prod.snd := by
  rw [hardAgg, Agg.map_snd_aggBy_of_nodup_keys _ ?hnd]
  · exact List.map_id _
  · rw [map_key2acc_fineAgg]
    exact map_key2_reps_nodup recs hgood

theorem processRows_eq (rows : List Row) :
    processRows rows =
      List.insertionSort featLe
        (((fineAgg (rows.filterMap normalizeRow)).map Prod.snd).map featureOf) := by
  rw [processRows, runRecs, hardAgg_values _ (recs_good rows)]

theorem mem_processRows {rows : List Row} {f : Feature} :
    f ∈ processRows rows ↔
      f ∈ ((fineAgg (rows.filterMap normalizeRow)).map Prod.snd).map featureOf := by
  rw [processRows_eq]
  exact (List.perm_insertionSort featLe _).mem_iff

/-- The fine pass and the directly coarse-keyed pass produce the same
accumulator values, in the same order. -/
theorem fine_eq_coarse_values (recs : List Rec) (hgood : ∀ e ∈ recs, GoodRec e) :
    (fineAgg recs).map Prod.snd =
      (Agg.aggBy key2 initAcc mergeRec recs).map Prod.snd := by
  have hreps : Agg.repsBy key1 recs = Agg.repsBy key2 recs := by
    apply Agg.repsBy_congr recs
    intro a ha b hb
    exact (key2_eq_iff_key1 (hgood a ha) (hgood b hb)).symm
  rw [fineAgg_values, Agg.map_snd_aggBy recs junkAcc, ← hreps]
  apply List.map_congr_left
  intro r hr
  have hfil : recs.filter (fun y => key1 y = key1 r) =
      recs.filter (fun y => key2 y = key2 r) := by
    apply List.filter_congr
    intro y hy
    have hiff := key2_eq_iff_key1 (hgood y hy) (hgood r (Agg.mem_repsBy _ _ hr))
    by_cases h : key1 y = key1 r
    · simp [h, hiff.mpr h]
    · have h2 : ¬ key2 y = key2 r := fun e => h (hiff.mp e)
      simp [h, h2]
  rw [hfil]

end UpdateAttacks2026

theorem dedupFirst_nil : dedupFirst [] = [] := by
  simp [dedupFirst, Agg.repsBy]

theorem dedupFirst_cons (u : String) (us : List String) :
    dedupFirst (u :: us) = u :: dedupFirst (us.filter (fun v => v ≠ u)) := by
  rw [dedupFirst, Agg.repsBy_cons]
  rfl

theorem dedupFirst_nodup (us : List String) : (dedupFirst us).Nodup := by
  have h := @Agg.map_keyf_repsBy_nodup String String _ (fun u : String => u) us
  simpa [dedupFirst] using h

theorem mem_dedupFirst {us : List String} {u : String} (h : u ∈ dedupFirst us) :
    u ∈ us :=
  Agg.mem_repsBy us u h

theorem dedupFirst_length (us : List String) :
    (dedupFirst us).length = us.toFinset.card := by
  induction us using Agg.repsBy.induct (fun u : String => u) with
  | case1 => simp [dedupFirst_nil]
  | case2 u us ih =>
    rw [dedupFirst_cons]
    have hih : (dedupFirst (us.filter (fun v => v ≠ u))).length =
        (us.filter (fun v => v ≠ u)).toFinset.card := ih
    rw [List.length_cons, hih, List.toFinset_filter]
    simp only [decide_eq_true_eq]
    rw [Finset.filter_ne', List.toFinset_cons]
    by_cases hmem : u ∈ us.toFinset
    · have h1 : (insert u us.toFinset).card = us.toFinset.card :=
        Finset.card_insert_of_mem hmem
      have h2 : (us.toFinset.erase u).card = us.toFinset.card - 1 :=
        Finset.card_erase_of_mem hmem
      have h3 : 1 ≤ us.toFinset.card := Finset.card_pos.mpr ⟨u, hmem⟩
      omega
    · have h1 : (insert u us.toFinset).card = us.toFinset.card + 1 :=
        Finset.card_insert_of_not_mem hmem
      have h2 : us.toFinset.erase u = us.toFinset := Finset.erase_eq_of_not_mem hmem
      rw [h2]
      omega

/-- Closed form of the `add_unique` fold: starting from a list below the
cap, the result is the start list extended by the first occurrences of the
new nonempty URLs, truncated at `MAX_SOURCES_PER_EVENT`. -/
theorem foldl_add_unique_closed (us : List String) (l : List String)
    (hlen : l.length ≤ MAX_SOURCES_PER_EVENT) :
    us.foldl add_unique l =
      (l ++ dedupFirst (us.filter (fun u => u ∉ l ∧ u ≠ ""))).take
        MAX_SOURCES_PER_EVENT := by
  induction us generalizing l with
  | nil =>
    rw [List.foldl_nil, List.filter_nil, dedupFirst_nil, List.append_nil]
    exact (List.take_of_length_le hlen).symm
  | cons u us ih =>
    rw [List.foldl_cons]
    by_cases h1 : u = ""
    · have hstep : add_unique l u = l := by simp [add_unique, h1]
      rw [hstep, ih l hlen, List.filter_cons, if_neg (by simp [h1])]
    · by_cases h2 : u ∈ l
      · have hstep : add_unique l u = l := by simp [add_unique, h1, h2]
        rw [hstep, ih l hlen, List.filter_cons, if_neg (by simp [h2])]
      · by_cases h3 : MAX_SOURCES_PER_EVENT ≤ l.length
        · have hstep : add_unique l u = l := by simp [add_unique, h1, h3]
          have hl8 : l.length = MAX_SOURCES_PER_EVENT := le_antisymm hlen h3
          rw [hstep, ih l hlen, List.take_append_eq_append_take,
            List.take_append_eq_append_take, hl8]
          simp
        · have hstep : add_unique l u = l ++ [u] := by
            simp [add_unique, h1, h2, h3]
          have hlen' : (l ++ [u]).length ≤ MAX_SOURCES_PER_EVENT := by
            rw [List.length_append, List.length_singleton]
            omega
          rw [hstep, ih (l ++ [u]) hlen', List.filter_cons,
            if_pos (by simp [h1, h2]), dedupFirst_cons]
          have hfil : us.filter (fun v => v ∉ l ++ [u] ∧ v ≠ "") =
              (us.filter (fun v => v ∉ l ∧ v ≠ "")).filter (fun v => v ≠ u) := by
            rw [List.filter_filter]
            apply List.filter_congr
            intro v hv
            by_cases q1 : v = u
            · simp [q1]
            · by_cases q2 : v ∈ l
              · simp [q1, q2]
              · by_cases q3 : v = "" <;> simp [q1, q2, q3]
          rw [hfil, List.append_assoc]
          rfl

/-- Folding further URLs into a source list only ever appends: nothing is
evicted or reordered. -/
theorem foldl_add_unique_extends (extra : List String) (l : List String) :
    ∃ t, extra.foldl add_unique l = l ++ t := by
  induction extra generalizing l with
  | nil => exact ⟨[], by simp⟩
  | cons u extra ih =>
    rw [List.foldl_cons]
    by_cases c1 : u = ""
    · have hstep : add_unique l u = l := by simp [add_unique, c1]
      rw [hstep]
      exact ih l
    · by_cases c2 : u ∈ l ∨ MAX_SOURCES_PER_EVENT ≤ l.length
      · have hstep : add_unique l u = l := by
          rw [add_unique, if_neg c1, if_pos c2]
        rw [hstep]
        exact ih l
      · have hstep : add_unique l u = l ++ [u] := by
          rw [add_unique, if_neg c1, if_neg c2]
        rw [hstep]
        obtain ⟨t, ht⟩ := ih (l ++ [u])
        exact ⟨[u] ++ t, by rw [ht, List.append_assoc]⟩

namespace UpdateAttacks2026

/-- Concrete row: the spec's own Vienna scenario, first report. -/
def rowV1 : Row := ⟨"101", "20260301", "2026", "180", "18", "Vienna, Austria",
  some (4821/100), some (1637/100), "a.example"⟩

/-- Concrete row: the spec's own Vienna scenario, second report (same
normalized place, different raw spelling). -/
def rowV2 : Row := ⟨"102", "20260301", "2026", "180", "18", "vienna,  austria",
  some (4819/100), some (1639/100), "b.example"⟩

/-- The normalized record of `rowV1`. -/
def recV1 : Rec := ⟨"101", "2026-03-01", "18", "assault", "180", "Vienna, Austria",
  "vienna, austria", 4821/100, 1637/100, "a.example"⟩

/-- The normalized record of `rowV2`. -/
def recV2 : Rec := ⟨"102", "2026-03-01", "18", "assault", "180", "vienna,  austria",
  "vienna, austria", 4819/100, 1639/100, "b.example"⟩

/-- Concrete row whose raw place name is the literal string `"unknown"`. -/
def rowU1 : Row := ⟨"1", "20260105", "2026", "", "18", "unknown",
  some 1, some 2, "u1.example"⟩

/-- Concrete row with place `"Unknown"`, normalizing to the same key. -/
def rowU2 : Row := ⟨"2", "20260105", "2026", "", "18", "Unknown",
  some 3, some 4, "u2.example"⟩

/-- The normalized record of `rowU1`. -/
def recU1 : Rec := ⟨"1", "2026-01-05", "18", "assault", "", "unknown",
  "unknown", 1, 2, "u1.example"⟩

/-- The normalized record of `rowU2`. -/
def recU2 : Rec := ⟨"2", "2026-01-05", "18", "assault", "", "Unknown",
  "unknown", 3, 4, "u2.example"⟩

/-- Concrete row whose coordinates parse but are far outside the valid
geographic range, with an empty source URL. -/
def rowFar : Row := ⟨"5", "20260110", "2026", "", "19", "Nowhere",
  some 500, some 200, ""⟩

/-- The normalized record of `rowFar`. -/
def recFar : Rec := ⟨"5", "2026-01-10", "19", "fight", "", "Nowhere",
  "nowhere", 500, 200, ""⟩

/-- Concrete row with an allow-listed root but an 8-character day string
containing non-digits. -/
def rowBadDay : Row := ⟨"7", "2026ABCD", "2026", "", "18", "Pl",
  some 1, some 2, "c.example"⟩

/-- Concrete row whose root code `03` is outside the allow-list. -/
def rowBadRoot : Row := ⟨"9", "20260105", "2026", "030", "03", "Somewhere",
  some 10, some 20, "s.example"⟩

/-- Concrete row with stable id `A`, emitted by a previous run. -/
def rowP : Row := ⟨"A", "20260102", "2026", "", "18", "Pplace",
  some 10, some 20, "p.example"⟩

/-- Concrete row also carrying stable id `A`, arriving in a later fetch
with different content. -/
def rowA : Row := ⟨"A", "20260103", "2026", "", "18", "Aplace",
  some 30, some 40, "a2.example"⟩

theorem yyyymmdd_eq_empty_iff (s : String) :
    yyyymmdd_to_iso s = "" ↔ s.length ≠ 8 := by
  constructor
  · intro h hlen
    have hne : ¬ (s = "" ∨ s.length ≠ 8) := by
      push_neg
      refine ⟨?_, hlen⟩
      intro e
      rw [e] at hlen
      simp at hlen
    rw [yyyymmdd_to_iso, if_neg hne] at h
    have hlen10 := congrArg String.length h
    have hd : s.data.length = 8 := hlen
    simp [String.length_append, String.length_mk, List.length_take,
      List.length_drop, hd] at hlen10
  · intro h
    rw [yyyymmdd_to_iso, if_pos (Or.inr h)]

/-- C7 (confirmed).  A record whose category root code is outside the
closed allow-list table contributes to no emitted output point, whatever
its other fields: the whole run's output is unchanged by deleting it
from the input. -/
theorem claim_C7 (pre post : List Row) (r : Row)
    (h : ROOT_CODE_LABEL (pyStrip r.root) = none) :
    processRows (pre ++ r :: post) = processRows (pre ++ post) := by
  have hnone : normalizeRow r = none := by
    unfold normalizeRow
    by_cases hy : pyStrip r.year ≠ "2026"
    · rw [if_pos hy]
    · rw [if_neg hy, h]
  have heq : List.filterMap normalizeRow (pre ++ r :: post) =
      List.filterMap normalizeRow (pre ++ post) := by
    simp [List.filterMap_append, List.filterMap_cons, hnone]
  rw [processRows, processRows, heq]

/-- C7 witness at a concrete input: the out-of-table root code `03` row
drops out of a concrete run. -/
theorem claim_C7_witness :
    processRows ([rowV1] ++ rowBadRoot :: []) = processRows ([rowV1] ++ []) :=
  claim_C7 [rowV1] [] rowBadRoot rfl

/-- C6 counterexample.  The claim says an 8-character input containing a
non-digit is discarded and a 14-digit timestamp accepted; in the code an
8-character non-digit day yields the malformed date `2026-AB-CD` on an
emitted point, and a 14-digit timestamp is rejected. -/
theorem claim_C6_counterexample :
    (processRows [rowBadDay]).map Feature.date = ["2026-AB-CD"] ∧
    UpdateAttacks2026.yyyymmdd_to_iso "20260101123456" = "" := ⟨rfl, rfl⟩

/-- C6 (amended).  Date extraction accepts exactly an 8-character string
and slices it into `YYYY-MM-DD`; a 14-digit `YYYYMMDDHHMMSS` string is
discarded.  Only the `build_2025_quarters.py` variant additionally
requires all characters to be digits; the `update_attacks_2026.py` and
`build_2025_quarters_fast.py` variants (which are identical functions)
accept any 8 characters, so a non-digit 8-character input yields a
malformed sliced string rather than a discard. -/
theorem claim_C6_amended :
    (∀ s : String, (UpdateAttacks2026.yyyymmdd_to_iso s = "" ↔ s.length ≠ 8)) ∧
    UpdateAttacks2026.yyyymmdd_to_iso = Build2025QuartersFast.yyyymmdd_to_iso ∧
    (∀ s : String, (Build2025Quarters.yyyymmdd_to_iso s = "" ↔
      ¬(s.length = 8 ∧ s.data.all Char.isDigit))) ∧
    (∀ s : String, s.length = 8 →
      UpdateAttacks2026.yyyymmdd_to_iso s =
        String.mk (s.data.take 4) ++ "-" ++ String.mk ((s.data.drop 4).take 2)
          ++ "-" ++ String.mk ((s.data.drop 6).take 2)) := by
  refine ⟨yyyymmdd_eq_empty_iff, rfl, ?_, ?_⟩
  · intro s
    rw [Build2025Quarters.yyyymmdd_to_iso]
    by_cases hc : s.length = 8 ∧ s.data.all Char.isDigit
    · rw [if_pos hc]
      constructor
      · intro h
        exfalso
        have hlen10 := congrArg String.length h
        have hd : s.data.length = 8 := hc.1
        simp [String.length_append, String.length_mk, List.length_take,
          List.length_drop, hd] at hlen10
      · intro hn
        exact absurd hc hn
    · rw [if_neg hc]
      constructor
      · intro _
        exact hc
      · intro _
        rfl
  · intro s hlen
    rw [UpdateAttacks2026.yyyymmdd_to_iso,
      if_neg (by push_neg; exact ⟨by intro e; rw [e] at hlen; simp at hlen, hlen⟩)]

/-- C6 amended witness: the slicing branch evaluated on the concrete
non-digit 8-character input. -/
theorem claim_C6_amended_witness :
    ("2026ABCD" : String).length = 8 ∧
    UpdateAttacks2026.yyyymmdd_to_iso "2026ABCD" =
      String.mk (("2026ABCD" : String).data.take 4) ++ "-"
        ++ String.mk ((("2026ABCD" : String).data.drop 4).take 2) ++ "-"
        ++ String.mk ((("2026ABCD" : String).data.drop 6).take 2) :=
  ⟨by decide, claim_C6_amended.2.2.2 "2026ABCD" (by decide)⟩

/-- C5 counterexample.  The first non-empty raw place name among the
merged records is the literal string `"unknown"`, yet the emitted
location is the later record's `"Unknown"`: a non-empty place string is
overwritten, so the emitted location is not the first non-empty
`place_name`. -/
theorem claim_C5_counterexample :
    (processRows [rowU1, rowU2]).map Feature.location = ["Unknown"] ∧
    ("Unknown" : String) ≠ "unknown" := ⟨rfl, by decide⟩

/-- C5 (amended).  The emitted location is the first `place_name` in
arrival order that is both non-empty and different from the literal
string `"unknown"` (with `"unknown"` as the fallback): records whose raw
place name is exactly `"unknown"` are treated like empty ones for display
and can be overwritten by a later record. -/
theorem claim_C5_amended (rows : List Row) (k : String) (acc : Acc)
    (h : Agg.lookupKey (fineAgg (rows.filterMap normalizeRow)) k = some acc) :
    featureOf acc ∈ processRows rows ∧
    (featureOf acc).location =
      locFirst ((rows.filterMap normalizeRow).filter (fun e => key1 e = k)) := by
  have h2 : Agg.accFold? initAcc mergeRec
      ((rows.filterMap normalizeRow).filter (fun e => key1 e = k)) = some acc := by
    rw [← Agg.lookupKey_aggBy]
    exact h
  constructor
  · exact mem_processRows.mpr (List.mem_map_of_mem featureOf (Agg.lookupKey_mem h))
  · cases hcls : (rows.filterMap normalizeRow).filter (fun e => key1 e = k) with
    | nil =>
      rw [hcls] at h2
      simp [Agg.accFold?] at h2
    | cons x t =>
      rw [hcls] at h2
      have hacc : acc = t.foldl mergeRec (initAcc x) := (Option.some.inj h2).symm
      rw [hacc]
      exact (classAcc_spec x t).2.2.2.2.2.2.2.2.2.2

/-- C5 amended witness: in the concrete `"unknown"`-then-`"Unknown"` run
the emitted location is the fold's first displayable name. -/
theorem claim_C5_amended_witness :
    featureOf (mergeRec (initAcc recU1) recU2) ∈ processRows [rowU1, rowU2] ∧
    (featureOf (mergeRec (initAcc recU1) recU2)).location =
      locFirst (([rowU1, rowU2].filterMap normalizeRow).filter
        (fun e => key1 e = key1 recU1)) :=
  claim_C5_amended [rowU1, rowU2] (key1 recU1) (mergeRec (initAcc recU1) recU2) rfl

/-- C8 counterexample.  A record with coordinates `(500, 200)` passes
every filter (they parse, and nothing range-checks them) and is emitted
as a point far outside the valid coordinate range. -/
theorem claim_C8_counterexample :
    (processRows [rowFar]).map Feature.lat = [500] ∧
    (processRows [rowFar]).map Feature.lon = [200] ∧
    ¬ ((500 : ℚ) ≤ 90) ∧ ¬ ((200 : ℚ) ≤ 180) := by
  have h : processRows [rowFar] = [featureOf (initAcc recFar)] := rfl
  refine ⟨?_, ?_, by norm_num, by norm_num⟩
  · rw [h]
    simp [featureOf, initAcc, recFar]
  · rw [h]
    simp [featureOf, initAcc, recFar]

end UpdateAttacks2026

namespace UpdateAttacks2026

/-- Coordinate-range predicate on a normalized record. -/
def InRange (e : Rec) : Prop :=
  -90 ≤ e.lat ∧ e.lat ≤ 90 ∧ -180 ≤ e.lon ∧ e.lon ≤ 180

/-- Range invariant of an accumulator: the coordinate sums are bounded by
the count times the coordinate bounds. -/
def AccRange (a : Acc) : Prop :=
  1 ≤ a.n ∧ -90 * (a.n : ℚ) ≤ a.lat_sum ∧ a.lat_sum ≤ 90 * (a.n : ℚ) ∧
    -180 * (a.n : ℚ) ≤ a.lon_sum ∧ a.lon_sum ≤ 180 * (a.n : ℚ)

theorem accRange_init {e : Rec} (h : InRange e) : AccRange (initAcc e) := by
  obtain ⟨h1, h2, h3, h4⟩ := h
  refine ⟨le_refl 1, ?_, ?_, ?_, ?_⟩ <;> simp [initAcc] <;> linarith

theorem accRange_merge {a : Acc} {e : Rec} (ha : AccRange a) (he : InRange e) :
    AccRange (mergeRec a e) := by
  obtain ⟨hn, ha1, ha2, ha3, ha4⟩ := ha
  obtain ⟨he1, he2, he3, he4⟩ := he
  refine ⟨by simp [mergeRec], ?_, ?_, ?_, ?_⟩ <;>
    simp only [mergeRec] <;> push_cast <;> linarith

/-- C8 (amended).  Coordinates are only parse-checked, never
range-checked (see the counterexample); the range invariant holds only
conditionally: whenever every accepted record's coordinates are in the
valid range, every emitted point's centroid is too. -/
theorem claim_C8_amended (rows : List Row)
    (hin : ∀ e ∈ rows.filterMap normalizeRow, InRange e) :
    ∀ f ∈ processRows rows,
      -90 ≤ f.lat ∧ f.lat ≤ 90 ∧ -180 ≤ f.lon ∧ f.lon ≤ 180 := by
  intro f hf
  rw [mem_processRows] at hf
  obtain ⟨acc, hacc, rfl⟩ := List.mem_map.mp hf
  obtain ⟨kv, hkv, rfl⟩ := List.mem_map.mp hacc
  have hrange : AccRange kv.2 := by
    refine Agg.forall_snd_aggBy _ ?_ ?_ kv hkv
    · exact fun e he => accRange_init (hin e he)
    · exact fun b e he hb => accRange_merge hb (hin e he)
  obtain ⟨hn, h1, h2, h3, h4⟩ := hrange
  have hmax : (max 1 kv.2.n : Nat) = kv.2.n := Nat.max_eq_right hn
  have hpos : (0 : ℚ) < ((kv.2.n : Nat) : ℚ) := by
    have : 0 < kv.2.n := hn
    exact_mod_cast this
  refine ⟨?_, ?_, ?_, ?_⟩
  · show -90 ≤ kv.2.lat_sum / ((max 1 kv.2.n : Nat) : ℚ)
    rw [hmax, le_div_iff₀ hpos]
    linarith
  · show kv.2.lat_sum / ((max 1 kv.2.n : Nat) : ℚ) ≤ 90
    rw [hmax, div_le_iff₀ hpos]
    linarith
  · show -180 ≤ kv.2.lon_sum / ((max 1 kv.2.n : Nat) : ℚ)
    rw [hmax, le_div_iff₀ hpos]
    linarith
  · show kv.2.lon_sum / ((max 1 kv.2.n : Nat) : ℚ) ≤ 180
    rw [hmax, div_le_iff₀ hpos]
    linarith

/-- C8 amended witness on the concrete in-range Vienna run. -/
theorem claim_C8_amended_witness :
    -90 ≤ (featureOf (mergeRec (initAcc recV1) recV2)).lat ∧
    (featureOf (mergeRec (initAcc recV1) recV2)).lat ≤ 90 ∧
    -180 ≤ (featureOf (mergeRec (initAcc recV1) recV2)).lon ∧
    (featureOf (mergeRec (initAcc recV1) recV2)).lon ≤ 180 :=
  claim_C8_amended [rowV1, rowV2]
    (by
      intro e he
      have hl : List.filterMap normalizeRow [rowV1, rowV2] = [recV1, recV2] := rfl
      rw [hl] at he
      rcases List.mem_cons.mp he with rfl | he
      · refine ⟨?_, ?_, ?_, ?_⟩ <;> norm_num [recV1]
      · rcases List.mem_cons.mp he with rfl | he
        · refine ⟨?_, ?_, ?_, ?_⟩ <;> norm_num [recV2]
        · simp at he)
    (featureOf (mergeRec (initAcc recV1) recV2))
    (by
      have h : processRows [rowV1, rowV2] =
          [featureOf (mergeRec (initAcc recV1) recV2)] := rfl
      rw [h]
      exact List.mem_singleton_self _)

/-- Invariant of a source list: no empty entry and no duplicate. -/
def SrcOk (a : Acc) : Prop := ("" ∉ a.sources) ∧ a.sources.Nodup

theorem add_unique_no_empty {l : List String} (u : String) (h : "" ∉ l) :
    "" ∉ add_unique l u := by
  rw [add_unique]
  split_ifs with c1 c2
  · exact h
  · exact h
  · intro hmem
    rcases List.mem_append.mp hmem with hm | hm
    · exact h hm
    · rw [List.mem_singleton] at hm
      exact c1 hm.symm

theorem add_unique_nodup {l : List String} (u : String) (h : l.Nodup) :
    (add_unique l u).Nodup := by
  rw [add_unique]
  split_ifs with c1 c2
  · exact h
  · exact h
  · have hu : u ∉ l := fun hm => c2 (Or.inl hm)
    simp [List.nodup_append, h, hu]

/-- C10 (confirmed).  No emitted sources list ever contains the empty
string, the list is duplicate-free, and `sources_count` is exactly its
length; a record with an empty `source_url` is still merged (count and
coordinate sums updated) while contributing nothing to `sources`, both
at accumulator creation and on merge. -/
theorem claim_C10 (rows : List Row) :
    (∀ f ∈ processRows rows,
      "" ∉ f.sources ∧ f.sources.Nodup ∧ f.sources_count = f.sources.length) ∧
    (∀ (a : Acc) (e : Rec), e.sourceurl = "" →
      (mergeRec a e).sources = a.sources ∧ (mergeRec a e).n = a.n + 1 ∧
      (mergeRec a e).lat_sum = a.lat_sum + e.lat ∧
      (mergeRec a e).lon_sum = a.lon_sum + e.lon) ∧
    (∀ e : Rec, e.sourceurl = "" →
      (initAcc e).sources = [] ∧ (initAcc e).n = 1 ∧
      (initAcc e).lat_sum = e.lat ∧ (initAcc e).lon_sum = e.lon) := by
  refine ⟨?_, ?_, ?_⟩
  · intro f hf
    rw [mem_processRows] at hf
    obtain ⟨acc, hacc, rfl⟩ := List.mem_map.mp hf
    obtain ⟨kv, hkv, rfl⟩ := List.mem_map.mp hacc
    have hsrc : SrcOk kv.2 := by
      refine Agg.forall_snd_aggBy _ ?_ ?_ kv hkv
      · intro e he
        rw [SrcOk, initAcc_sources]
        exact ⟨add_unique_no_empty _ (by simp), add_unique_nodup _ List.nodup_nil⟩
      · intro b e he hb
        exact ⟨add_unique_no_empty _ hb.1, add_unique_nodup _ hb.2⟩
    exact ⟨hsrc.1, hsrc.2, rfl⟩
  · intro a e he
    refine ⟨?_, rfl, rfl, rfl⟩
    show add_unique a.sources e.sourceurl = a.sources
    rw [he, add_unique, if_pos rfl]
  · intro e he
    exact ⟨by simp [initAcc, he], rfl, rfl, rfl⟩

/-- C10 witness on a concrete record whose `source_url` is empty. -/
theorem claim_C10_witness :
    ("" ∉ (featureOf (initAcc recFar)).sources ∧
      (featureOf (initAcc recFar)).sources.Nodup ∧
      (featureOf (initAcc recFar)).sources_count =
        (featureOf (initAcc recFar)).sources.length) ∧
    ((mergeRec (initAcc recV1) recFar).sources = (initAcc recV1).sources ∧
      (mergeRec (initAcc recV1) recFar).n = (initAcc recV1).n + 1 ∧
      (mergeRec (initAcc recV1) recFar).lat_sum =
        (initAcc recV1).lat_sum + recFar.lat ∧
      (mergeRec (initAcc recV1) recFar).lon_sum =
        (initAcc recV1).lon_sum + recFar.lon) ∧
    ((initAcc recFar).sources = [] ∧ (initAcc recFar).n = 1 ∧
      (initAcc recFar).lat_sum = recFar.lat ∧
      (initAcc recFar).lon_sum = recFar.lon) := by
  refine ⟨(claim_C10 [rowFar]).1 _ ?_,
    (claim_C10 []).2.1 (initAcc recV1) recFar rfl,
    (claim_C10 []).2.2 recFar rfl⟩
  have h : processRows [rowFar] = [featureOf (initAcc recFar)] := rfl
  rw [h]
  exact List.mem_singleton_self _

end UpdateAttacks2026

namespace UpdateAttacks2026

/-- C4 (confirmed).  The sources list produced by folding `add_unique`
is exactly the first `MAX_SOURCES_PER_EVENT` distinct non-empty URLs in
first-seen order; it is capped at `MAX_SOURCES_PER_EVENT`, duplicate-free
and empty-free; once more than `MAX_SOURCES_PER_EVENT` distinct non-empty
URLs have been seen it has exactly `MAX_SOURCES_PER_EVENT` entries;
further folding only appends (nothing is ever evicted); and every fine
accumulator's sources list is exactly this fold over its records' URLs in
arrival order. -/
theorem claim_C4 (us : List String) :
    List.foldl add_unique [] us =
      (dedupFirst (us.filter (fun u => u ≠ ""))).take MAX_SOURCES_PER_EVENT ∧
    (List.foldl add_unique [] us).length ≤ MAX_SOURCES_PER_EVENT ∧
    (List.foldl add_unique [] us).Nodup ∧
    (∀ u ∈ List.foldl add_unique [] us, u ≠ "") ∧
    (MAX_SOURCES_PER_EVENT ≤ (us.filter (fun u => u ≠ "")).toFinset.card →
      (List.foldl add_unique [] us).length = MAX_SOURCES_PER_EVENT) ∧
    (∀ extra : List String, ∃ t,
      extra.foldl add_unique (List.foldl add_unique [] us) =
        List.foldl add_unique [] us ++ t) ∧
    (∀ (rows : List Row) (k : String) (acc : Acc),
      Agg.lookupKey (fineAgg (rows.filterMap normalizeRow)) k = some acc →
      acc.sources =
        (((rows.filterMap normalizeRow).filter (fun e => key1 e = k)).map
          Rec.sourceurl).foldl add_unique []) := by
  have hbase : List.foldl add_unique [] us =
      (dedupFirst (us.filter (fun u => u ≠ ""))).take MAX_SOURCES_PER_EVENT := by
    rw [foldl_add_unique_closed us [] (by simp [MAX_SOURCES_PER_EVENT]),
      List.nil_append]
    congr 2
    apply List.filter_congr
    intro u hu
    simp
  refine ⟨hbase, ?_, ?_, ?_, ?_, fun extra => foldl_add_unique_extends extra _, ?_⟩
  · rw [hbase]
    exact List.length_take_le _ _
  · rw [hbase]
    exact (dedupFirst_nodup _).sublist (List.take_sublist _ _)
  · intro u hu
    rw [hbase] at hu
    have h2 := mem_dedupFirst ((List.take_sublist _ _).subset hu)
    have h3 := List.of_mem_filter h2
    simpa using h3
  · intro hcard
    rw [hbase, List.length_take, dedupFirst_length]
    omega
  · intro rows k acc h
    have h2 : Agg.accFold? initAcc mergeRec
        ((rows.filterMap normalizeRow).filter (fun e => key1 e = k)) = some acc := by
      rw [← Agg.lookupKey_aggBy]
      exact h
    cases hcls : (rows.filterMap normalizeRow).filter (fun e => key1 e = k) with
    | nil =>
      rw [hcls] at h2
      simp [Agg.accFold?] at h2
    | cons x t =>
      rw [hcls] at h2
      have hacc : acc = t.foldl mergeRec (initAcc x) := (Option.some.inj h2).symm
      rw [hacc]
      exact (classAcc_spec x t).2.2.2.2.2.2.2.2.2.1

/-- C4 witness: eleven URLs (with a duplicate and an empty) collapse to
exactly the first eight distinct non-empty ones in first-seen order, and
the Vienna accumulator's sources match the fold of its records' URLs. -/
theorem claim_C4_witness :
    List.foldl add_unique []
        ["a", "b", "a", "", "c", "d", "e", "f", "g", "h", "i"] =
      (dedupFirst ((["a", "b", "a", "", "c", "d", "e", "f", "g", "h", "i"]).filter
        (fun u => u ≠ ""))).take MAX_SOURCES_PER_EVENT ∧
    (List.foldl add_unique []
        ["a", "b", "a", "", "c", "d", "e", "f", "g", "h", "i"]).length =
      MAX_SOURCES_PER_EVENT ∧
    (mergeRec (initAcc recV1) recV2).sources =
      ((([rowV1, rowV2].filterMap normalizeRow).filter
        (fun e => key1 e = key1 recV1)).map Rec.sourceurl).foldl add_unique [] :=
  ⟨(claim_C4 ["a", "b", "a", "", "c", "d", "e", "f", "g", "h", "i"]).1,
    (claim_C4 ["a", "b", "a", "", "c", "d", "e", "f", "g", "h", "i"]).2.2.2.2.1
      (by decide),
    (claim_C4 []).2.2.2.2.2.2 [rowV1, rowV2] (key1 recV1)
      (mergeRec (initAcc recV1) recV2) rfl⟩

/-- C3 (confirmed).  Every fine accumulator holds the records of its
merge key: its count is the number of merged records (at least 1), its
emitted feature is in the run's output, and the emitted geometry is
exactly the arithmetic centroid — the coordinate sums divided by the
accumulator's count (the `max 1 n` in the code equals `n` since
`n ≥ 1`). -/
theorem claim_C3 (rows : List Row) (k : String) (acc : Acc)
    (h : Agg.lookupKey (fineAgg (rows.filterMap normalizeRow)) k = some acc) :
    1 ≤ acc.n ∧
    acc.n = ((rows.filterMap normalizeRow).filter (fun e => key1 e = k)).length ∧
    featureOf acc ∈ processRows rows ∧
    (featureOf acc).lat =
      (((rows.filterMap normalizeRow).filter (fun e => key1 e = k)).map
        Rec.lat).sum / (acc.n : ℚ) ∧
    (featureOf acc).lon =
      (((rows.filterMap normalizeRow).filter (fun e => key1 e = k)).map
        Rec.lon).sum / (acc.n : ℚ) := by
  have h2 : Agg.accFold? initAcc mergeRec
      ((rows.filterMap normalizeRow).filter (fun e => key1 e = k)) = some acc := by
    rw [← Agg.lookupKey_aggBy]
    exact h
  have hmem : featureOf acc ∈ processRows rows :=
    mem_processRows.mpr (List.mem_map_of_mem featureOf (Agg.lookupKey_mem h))
  cases hcls : (rows.filterMap normalizeRow).filter (fun e => key1 e = k) with
  | nil =>
    rw [hcls] at h2
    simp [Agg.accFold?] at h2
  | cons x t =>
    rw [hcls] at h2
    have hacc : acc = t.foldl mergeRec (initAcc x) := (Option.some.inj h2).symm
    have hn : acc.n = (x :: t).length := by
      rw [hacc]
      exact (classAcc_spec x t).2.2.2.2.1
    have h1n : 1 ≤ acc.n := by
      rw [hn]
      simp
    have hmax : (max 1 acc.n : Nat) = acc.n := Nat.max_eq_right h1n
    have hlat : acc.lat_sum = ((x :: t).map Rec.lat).sum := by
      rw [hacc]
      exact (classAcc_spec x t).2.2.2.2.2.1
    have hlon : acc.lon_sum = ((x :: t).map Rec.lon).sum := by
      rw [hacc]
      exact (classAcc_spec x t).2.2.2.2.2.2.1
    refine ⟨h1n, hn, hmem, ?_, ?_⟩
    · show acc.lat_sum / ((max 1 acc.n : Nat) : ℚ) = _
      rw [hmax, hlat]
    · show acc.lon_sum / ((max 1 acc.n : Nat) : ℚ) = _
      rw [hmax, hlon]

/-- C3 witness on the concrete two-record Vienna key. -/
theorem claim_C3_witness :
    1 ≤ (mergeRec (initAcc recV1) recV2).n ∧
    (mergeRec (initAcc recV1) recV2).n =
      (([rowV1, rowV2].filterMap normalizeRow).filter
        (fun e => key1 e = key1 recV1)).length ∧
    featureOf (mergeRec (initAcc recV1) recV2) ∈ processRows [rowV1, rowV2] ∧
    (featureOf (mergeRec (initAcc recV1) recV2)).lat =
      ((([rowV1, rowV2].filterMap normalizeRow).filter
        (fun e => key1 e = key1 recV1)).map Rec.lat).sum /
        ((mergeRec (initAcc recV1) recV2).n : ℚ) ∧
    (featureOf (mergeRec (initAcc recV1) recV2)).lon =
      ((([rowV1, rowV2].filterMap normalizeRow).filter
        (fun e => key1 e = key1 recV1)).map Rec.lon).sum /
        ((mergeRec (initAcc recV1) recV2).n : ℚ) :=
  claim_C3 [rowV1, rowV2] (key1 recV1) (mergeRec (initAcc recV1) recV2) rfl

/-- C9 (confirmed).  The two-stage aggregation (fine pass on
`date|root|normalized_place`, then the hard-dedupe pass on
`date|attack_type|normalized_place`) emits exactly the same output as a
single pass keyed directly on the coarse key: the root ↦ label table is
injective, so the second pass never actually merges. -/
theorem claim_C9 (rows : List Row) : processRows rows = coarseProcess rows := by
  rw [processRows_eq, coarseProcess, fine_eq_coarse_values _ (recs_good rows)]

/-- C1 counterexample.  The spec's incremental mode (reload previous
output, skip records whose stable id was already emitted, append the
rest) disagrees with the code on a concrete re-run: the code recomputes
purely from the new fetch and overwrites, so a record whose id `A` was
already emitted is processed again instead of being skipped. -/
theorem claim_C1_counterexample :
    processRows [rowA] ≠
      incrementalRunSpec (processRows [rowP]) {"A"} [rowA] := by
  intro h
  have h2 := congrArg (List.map Feature.location) h
  exact absurd h2 (by decide)

/-- C1 (amended).  A run never reloads previous output: its result is a
pure function of the fetched rows alone, and a record whose `record_id`
is already present in its key's accumulator is not skipped — it still
increments the count and the coordinate sums — while the `gdelt_ids` set
absorbs the duplicate, so within one run an id is never counted twice:
each accumulator's id set is exactly the set of distinct non-empty gids
of its merged records. -/
theorem claim_C1_amended :
    (∀ (a : Acc) (e : Rec), e.gid ∈ a.gdelt_ids →
      (mergeRec a e).gdelt_ids = a.gdelt_ids ∧ (mergeRec a e).n = a.n + 1 ∧
      (mergeRec a e).lat_sum = a.lat_sum + e.lat ∧
      (mergeRec a e).lon_sum = a.lon_sum + e.lon) ∧
    (∀ (rows : List Row) (k : String) (acc : Acc),
      Agg.lookupKey (fineAgg (rows.filterMap normalizeRow)) k = some acc →
      acc.gdelt_ids =
        (((rows.filterMap normalizeRow).filter (fun e => key1 e = k)).filterMap
          gidOf).toFinset) := by
  constructor
  · intro a e he
    refine ⟨?_, rfl, rfl, rfl⟩
    show (if e.gid = "" then a.gdelt_ids else insert e.gid a.gdelt_ids) = a.gdelt_ids
    by_cases hg : e.gid = ""
    · rw [if_pos hg]
    · rw [if_neg hg]
      exact Finset.insert_eq_self.mpr he
  · intro rows k acc h
    have h2 : Agg.accFold? initAcc mergeRec
        ((rows.filterMap normalizeRow).filter (fun e => key1 e = k)) = some acc := by
      rw [← Agg.lookupKey_aggBy]
      exact h
    cases hcls : (rows.filterMap normalizeRow).filter (fun e => key1 e = k) with
    | nil =>
      rw [hcls] at h2
      simp [Agg.accFold?] at h2
    | cons x t =>
      rw [hcls] at h2
      have hacc : acc = t.foldl mergeRec (initAcc x) := (Option.some.inj h2).symm
      rw [hacc]
      exact (classAcc_spec x t).2.2.2.2.2.2.2.2.1

/-- C1 amended witness: merging a record whose gid is already in the
accumulator still adds to count and sums but leaves the id set unchanged,
and the concrete Vienna accumulator's id set is its records' gid set. -/
theorem claim_C1_amended_witness :
    ((mergeRec (initAcc recV1) recV1).gdelt_ids = (initAcc recV1).gdelt_ids ∧
      (mergeRec (initAcc recV1) recV1).n = (initAcc recV1).n + 1 ∧
      (mergeRec (initAcc recV1) recV1).lat_sum =
        (initAcc recV1).lat_sum + recV1.lat ∧
      (mergeRec (initAcc recV1) recV1).lon_sum =
        (initAcc recV1).lon_sum + recV1.lon) ∧
    (mergeRec (initAcc recV1) recV2).gdelt_ids =
      ((([rowV1, rowV2].filterMap normalizeRow).filter
        (fun e => key1 e = key1 recV1)).filterMap gidOf).toFinset :=
  ⟨claim_C1_amended.1 (initAcc recV1) recV1 (by decide),
    claim_C1_amended.2 [rowV1, rowV2] (key1 recV1)
      (mergeRec (initAcc recV1) recV2) rfl⟩

end UpdateAttacks2026

namespace UpdateAttacks2026

/-- The permutation-invariant projection of an emitted feature: date,
category, root code, both centroid coordinates, the sorted event-code
list, the distinct-id count and the sources count.  (The display location
and the sources list itself are left out: they depend on arrival order.) -/
def projFeature (f : Feature) :
    String × String × String × ℚ × ℚ × List String × Nat × Nat :=
  (f.date, f.attack_type, f.event_root_code, f.lat, f.lon, f.event_codes,
    f.gdelt_ids_count, f.sources_count)

theorem foldl_add_unique_length (us : List String) :
    (List.foldl add_unique [] us).length =
      min MAX_SOURCES_PER_EVENT ((us.filter (fun u => u ≠ "")).toFinset.card) := by
  rw [foldl_add_unique_closed us [] (by simp [MAX_SOURCES_PER_EVENT]),
    List.nil_append, List.length_take, dedupFirst_length]
  congr 3
  apply List.filter_congr
  intro u hu
  simp

/-- Two permuted record classes of the same key produce accumulators
with identical invariant projections. -/
theorem class_proj_eq {k : String} {l1 l2 : List Rec}
    (hg1 : ∀ e ∈ l1, GoodRec e) (hg2 : ∀ e ∈ l2, GoodRec e)
    (hk1 : ∀ e ∈ l1, key1 e = k) (hk2 : ∀ e ∈ l2, key1 e = k)
    (hp : l1.Perm l2) (hne : l1 ≠ []) :
    projFeature (featureOf ((Agg.accFold? initAcc mergeRec l1).getD junkAcc)) =
      projFeature (featureOf ((Agg.accFold? initAcc mergeRec l2).getD junkAcc)) := by
  cases l1 with
  | nil => exact absurd rfl hne
  | cons x1 t1 =>
    cases l2 with
    | nil => cases List.perm_nil.mp hp
    | cons x2 t2 =>
      have s1 := classAcc_spec x1 t1
      have s2 := classAcc_spec x2 t2
      have hgx1 := hg1 x1 (by simp)
      have hgx2 := hg2 x2 (by simp)
      have hkey : key1 x1 = key1 x2 := (hk1 x1 (by simp)).trans (hk2 x2 (by simp)).symm
      have hcomp := (key1_eq_iff hgx1 hgx2).mp hkey
      have hatt : x1.attack_type = x2.attack_type := by
        have e1 := hgx1.2
        have e2 := hgx2.2
        rw [hcomp.2.1, e2] at e1
        exact (Option.some.inj e1).symm
      show projFeature (featureOf (t1.foldl mergeRec (initAcc x1))) =
        projFeature (featureOf (t2.foldl mergeRec (initAcc x2)))
      have hdate : (t1.foldl mergeRec (initAcc x1)).date =
          (t2.foldl mergeRec (initAcc x2)).date := by
        rw [s1.1, s2.1, hcomp.1]
      have hattA : (t1.foldl mergeRec (initAcc x1)).attack_type =
          (t2.foldl mergeRec (initAcc x2)).attack_type := by
        rw [s1.2.1, s2.2.1, hatt]
      have hrootA : (t1.foldl mergeRec (initAcc x1)).event_root_code =
          (t2.foldl mergeRec (initAcc x2)).event_root_code := by
        rw [s1.2.2.1, s2.2.2.1, hcomp.2.1]
      have hnA : (t1.foldl mergeRec (initAcc x1)).n =
          (t2.foldl mergeRec (initAcc x2)).n := by
        rw [s1.2.2.2.2.1, s2.2.2.2.2.1, hp.length_eq]
      have hlatA : (t1.foldl mergeRec (initAcc x1)).lat_sum =
          (t2.foldl mergeRec (initAcc x2)).lat_sum := by
        rw [s1.2.2.2.2.2.1, s2.2.2.2.2.2.1, (hp.map Rec.lat).sum_eq]
      have hlonA : (t1.foldl mergeRec (initAcc x1)).lon_sum =
          (t2.foldl mergeRec (initAcc x2)).lon_sum := by
        rw [s1.2.2.2.2.2.2.1, s2.2.2.2.2.2.2.1, (hp.map Rec.lon).sum_eq]
      have hcodesA : (t1.foldl mergeRec (initAcc x1)).event_codes =
          (t2.foldl mergeRec (initAcc x2)).event_codes := by
        rw [s1.2.2.2.2.2.2.2.1, s2.2.2.2.2.2.2.2.1]
        exact List.toFinset_eq_of_perm _ _ (hp.filterMap codeOf)
      have hidsA : (t1.foldl mergeRec (initAcc x1)).gdelt_ids =
          (t2.foldl mergeRec (initAcc x2)).gdelt_ids := by
        rw [s1.2.2.2.2.2.2.2.2.1, s2.2.2.2.2.2.2.2.2.1]
        exact List.toFinset_eq_of_perm _ _ (hp.filterMap gidOf)
      have hsrcA : (t1.foldl mergeRec (initAcc x1)).sources.length =
          (t2.foldl mergeRec (initAcc x2)).sources.length := by
        rw [s1.2.2.2.2.2.2.2.2.2.1, s2.2.2.2.2.2.2.2.2.2.1,
          foldl_add_unique_length, foldl_add_unique_length]
        congr 2
        exact List.toFinset_eq_of_perm _ _ ((hp.map Rec.sourceurl).filter _)
      simp only [projFeature, featureOf]
      rw [hdate, hattA, hrootA, hnA, hlatA, hlonA, hcodesA, hidsA, hsrcA]

/-- The invariant projection of the class accumulator of a key, over a
record list. -/
def classProj (recs : List Rec) (k : String) :
    String × String × String × ℚ × ℚ × List String × Nat × Nat :=
  projFeature (featureOf ((Agg.accFold? initAcc mergeRec
    (recs.filter (fun y => key1 y = k))).getD junkAcc))

end UpdateAttacks2026

namespace UpdateAttacks2026

/-- C2 counterexample.  Swapping the arrival order of two records of the
same merge key changes the emitted point's `location` property (the raw
spelling of the first-arriving report wins), so the final point set is
not identical under permutation with all properties preserved. -/
theorem claim_C2_counterexample :
    ((processRows [rowV1, rowV2]).map Feature.location : Multiset String) ≠
      ((processRows [rowV2, rowV1]).map Feature.location : Multiset String) := by
  intro h
  rw [Multiset.coe_eq_coe] at h
  have h1 : (processRows [rowV1, rowV2]).map Feature.location =
      ["Vienna, Austria"] := rfl
  have h2 : (processRows [rowV2, rowV1]).map Feature.location =
      ["vienna,  austria"] := rfl
  rw [h1, h2] at h
  have hmem : ("Vienna, Austria" : String) ∈ (["vienna,  austria"] : List String) :=
    h.mem_iff.mp (by simp)
  rw [List.mem_singleton] at hmem
  exact absurd hmem (by decide)

/-- C2 (amended).  For every permutation of the input rows the multiset
of emitted points is unchanged in every order-independent property:
merge key fields (date, category, root code), exact centroid, sorted
event-code list, distinct-id count, and sources count.  The `location`
string and the `sources` list themselves may depend on arrival order
(first-seen display name; insertion-ordered capped source list), as the
counterexample shows. -/
theorem claim_C2_amended (rows1 rows2 : List Row) (hperm : rows1.Perm rows2) :
    ((processRows rows1).map projFeature :
        Multiset (String × String × String × ℚ × ℚ × List String × Nat × Nat)) =
      ((processRows rows2).map projFeature :
        Multiset (String × String × String × ℚ × ℚ × List String × Nat × Nat)) := by
  have hrecs : (rows1.filterMap normalizeRow).Perm (rows2.filterMap normalizeRow) :=
    hperm.filterMap _
  rw [Multiset.coe_eq_coe]
  have e1 : (processRows rows1).Perm
      (((fineAgg (rows1.filterMap normalizeRow)).map Prod.snd).map featureOf) := by
    rw [processRows_eq]
    exact List.perm_insertionSort _ _
  have e2 : (processRows rows2).Perm
      (((fineAgg (rows2.filterMap normalizeRow)).map Prod.snd).map featureOf) := by
    rw [processRows_eq]
    exact List.perm_insertionSort _ _
  refine ((e1.map projFeature).trans ?_).trans ((e2.map projFeature).symm)
  rw [fineAgg_values, fineAgg_values, List.map_map, List.map_map, List.map_map,
    List.map_map]
  have hcomp1 : ∀ recs : List Rec,
      (Agg.repsBy key1 recs).map
          ((projFeature ∘ featureOf) ∘ fun r =>
            (Agg.accFold? initAcc mergeRec
              (recs.filter (fun y => key1 y = key1 r))).getD junkAcc) =
        ((Agg.repsBy key1 recs).map key1).map (classProj recs) := by
    intro recs
    rw [List.map_map]
    rfl
  rw [hcomp1, hcomp1]
  have hnodup1 := @Agg.map_keyf_repsBy_nodup String Rec _ key1
    (rows1.filterMap normalizeRow)
  have hnodup2 := @Agg.map_keyf_repsBy_nodup String Rec _ key1
    (rows2.filterMap normalizeRow)
  have hkeys : ((Agg.repsBy key1 (rows1.filterMap normalizeRow)).map key1).Perm
      ((Agg.repsBy key1 (rows2.filterMap normalizeRow)).map key1) := by
    rw [List.perm_ext_iff_of_nodup hnodup1 hnodup2]
    intro k
    rw [Agg.mem_map_keyf_repsBy, Agg.mem_map_keyf_repsBy]
    constructor
    · rintro ⟨x, hx, hk⟩
      exact ⟨x, hrecs.mem_iff.mp hx, hk⟩
    · rintro ⟨x, hx, hk⟩
      exact ⟨x, hrecs.mem_iff.mpr hx, hk⟩
  refine (hkeys.map (classProj (rows1.filterMap normalizeRow))).trans ?_
  have hcongr : ((Agg.repsBy key1 (rows2.filterMap normalizeRow)).map key1).map
        (classProj (rows1.filterMap normalizeRow)) =
      ((Agg.repsBy key1 (rows2.filterMap normalizeRow)).map key1).map
        (classProj (rows2.filterMap normalizeRow)) := by
    apply List.map_congr_left
    intro k hk
    obtain ⟨x, hx, hkx⟩ := (Agg.mem_map_keyf_repsBy _ _).mp hk
    have hcls : ((rows2.filterMap normalizeRow).filter
        (fun y => key1 y = k)) ≠ [] := by
      intro hemp
      have : x ∈ (rows2.filterMap normalizeRow).filter (fun y => key1 y = k) :=
        List.mem_filter.mpr ⟨hx, by simp [hkx]⟩
      rw [hemp] at this
      simp at this
    have hpcls : ((rows1.filterMap normalizeRow).filter
          (fun y => key1 y = k)).Perm
        ((rows2.filterMap normalizeRow).filter (fun y => key1 y = k)) :=
      hrecs.filter _
    have hcls1 : ((rows1.filterMap normalizeRow).filter
        (fun y => key1 y = k)) ≠ [] := by
      intro hemp
      rw [hemp] at hpcls
      exact hcls (List.perm_nil.mp hpcls.symm)
    exact class_proj_eq
      (fun e he => recs_good rows1 e (List.mem_of_mem_filter he))
      (fun e he => recs_good rows2 e (List.mem_of_mem_filter he))
      (fun e he => by
        have := List.of_mem_filter he
        simpa using this)
      (fun e he => by
        have := List.of_mem_filter he
        simpa using this)
      hpcls hcls1
  rw [hcongr]

end UpdateAttacks2026

namespace UpdateAttacks2026

/-- C2 amended witness: the two orders of the concrete Vienna pair give
the same invariant projection multiset (even though their locations
differ). -/
theorem claim_C2_amended_witness :
    ((processRows [rowV1, rowV2]).map projFeature :
        Multiset (String × String × String × ℚ × ℚ × List String × Nat × Nat)) =
      ((processRows [rowV2, rowV1]).map projFeature :
        Multiset (String × String × String × ℚ × ℚ × List String × Nat × Nat)) :=
  claim_C2_amended [rowV1, rowV2] [rowV2, rowV1] (List.Perm.swap rowV2 rowV1 [])

end UpdateAttacks2026
